import Mathlib

/-!
# GoAudits scheduled-workers pipeline: a shallow embedding with proofs

This file embeds, in Lean, the core logic of the GoAudits batch pipeline
(`functions/src/jobs/goaudits-pipeline.js` and
`functions/src/jobs/goaudits-email-outbox-materialise.js`):

* JavaScript string helpers (`trim`, `toLowerCase`, `slice`-based truncation)
  modelled on ASCII data;
* the rule evaluator (`normalizeAnswer`, `evaluateRule`, `determineOutcome`);
* ingest eligibility filtering, batch selection with tie expansion, the
  per-item ingest transactions (`ingestReports`) and the watermark update;
* certificate extraction (`extractCertificate`);
* summary-response classification (`fetchPage`) and the run-level outcome;
* question-key derivation (`normalizeQuestionKey`) including a full SHA-1;
* the scoring transaction (`scoreReport`);
* the e-mail outbox materialiser (`materialiseEmailOutbox`).

Database tables are modelled as association lists; a primary-key violation in
the source (SQL error 2627/2601) corresponds to a key-presence test here.
Unexpected SQL failures inside a per-item ingest transaction are modelled by
an environment oracle (`fail : String → Bool`), since they are raised by the
external database, not decided by the embedded code.
-/

namespace GoAudits

/-- JavaScript whitespace (ASCII fragment of `\s`): space, tab, LF, VT, FF, CR. -/
def isJsWs (c : Char) : Bool :=
  c.toNat = 32 ∨ c.toNat = 9 ∨ c.toNat = 10 ∨ c.toNat = 11 ∨ c.toNat = 12 ∨ c.toNat = 13

/-- Lower-case ASCII letter or digit, the character class `[a-z0-9]`. -/
def isLowerAlnum (c : Char) : Bool :=
  (97 ≤ c.toNat ∧ c.toNat ≤ 122) ∨ (48 ≤ c.toNat ∧ c.toNat ≤ 57)

/-- ASCII model of `String.prototype.toLowerCase` on one character. -/
def lowerChar (c : Char) : Char :=
  if 65 ≤ c.toNat ∧ c.toNat ≤ 90 then Char.ofNat (c.toNat + 32) else c

/-- `toLowerCase` over a character list. -/
def lowerList (l : List Char) : List Char := l.map lowerChar

/-- Strip leading and trailing JavaScript whitespace from a character list. -/
def trimChars (l : List Char) : List Char :=
  ((l.dropWhile isJsWs).reverse.dropWhile isJsWs).reverse

/-- `String.prototype.trim` (ASCII model). -/
def jsTrim (s : String) : String := ⟨trimChars s.data⟩

/-- `String.prototype.toLowerCase` (ASCII model). -/
def jsToLower (s : String) : String := ⟨lowerList s.data⟩

/-- The `truncate(str, max)` helper of the pipeline: `s.slice(0, max)` when the
string is longer than `max`, the string itself otherwise. -/
def truncate (s : String) (max : Nat) : String :=
  if s.length > max then ⟨s.data.take max⟩ else s

/-- Does `l` start with the segment `pat`? -/
def startsWithSeg : List Char → List Char → Bool
  | [], _ => true
  | _ :: _, [] => false
  | c :: cs, d :: ds => c = d && startsWithSeg cs ds

/-- Does `l` contain the contiguous segment `pat`? -/
def hasSegment (pat : List Char) : List Char → Bool
  | [] => startsWithSeg pat []
  | l@(_ :: rest) => startsWithSeg pat l || hasSegment pat rest

/-- Case-insensitive substring test, the model of `/certificate number/i`-style
regular-expression tests used by the pipeline. -/
def containsCI (s pat : String) : Bool :=
  hasSegment (jsToLower pat).data (jsToLower s).data

/-- JavaScript `x || null` on a nullable string: the empty string is falsy and
collapses to `null`. -/
def jsOrNull (v : Option String) : Option String :=
  match v with
  | some s => if s = "" then none else some s
  | none => none

/-! ## Rule documents and the evaluator

Shapes follow the JSON rule documents consumed by `loadRules`; optional JSON
fields appear as `Option`. -/

/-- Answer-normalisation options (`answerNormalization`), after the source's
`|| false` defaulting. -/
structure NormOpts where
  trimAnswers : Bool
  caseInsensitive : Bool
  emptyIsNull : Bool
deriving DecidableEq, Repr

/-- The three operators accepted by `evaluateRule`'s `switch`; any other `op`
string makes the source throw `Unsupported op`, which the score stage turns
into a per-item failure. -/
inductive RuleOp
  | missing
  | equalsOp
  | inOp
deriving DecidableEq, Repr

/-- The `nonCompliantWhen` object of a rule. `trimOverride`/`ciOverride` model
the rule-level boolean `trim`/`caseInsensitive` fields (`typeof nc.trim ===
'boolean'` guards in the source). -/
structure NonCompliantWhen where
  op : RuleOp
  value : Option String
  values : Option (List String)
  trimOverride : Option Bool
  ciOverride : Option Bool
deriving DecidableEq, Repr

/-- The `finding` object of a rule. -/
structure FindingSpec where
  severity : String
  code : Option String
  message : String
  majorNonCompliantText : Option String
  minorNonCompliantText : Option String
deriving DecidableEq, Repr

/-- One rule of a rule document. `questionKeysAny` (after the source's `?? []`)
feeds only the eligibility key set. -/
structure Rule where
  questionKey : String
  enabled : Option Bool
  questionKeysAny : List String
  nonCompliantWhen : NonCompliantWhen
  finding : FindingSpec
deriving DecidableEq, Repr

/-- A finding produced by `evaluateRule`. -/
structure Finding where
  questionKey : String
  answerValue : Option String
  severity : String
  code : Option String
  message : String
  majorNonCompliantText : Option String
  minorNonCompliantText : Option String
deriving DecidableEq, Repr

/-- An outcome rule's `when` object; `always` models `when.always === true`. -/
structure WhenCond where
  always : Bool
  majorCountGte : Option Int
  minorCountGte : Option Int
deriving DecidableEq, Repr

/-- One entry of `scoring.outcomeRules`. -/
structure OutcomeRule where
  whenCond : WhenCond
  outcome : String
deriving DecidableEq, Repr

/-- The `scoring.scoreValue` configuration. -/
structure ScoreValueCfg where
  typ : String
  fromSrc : String
  fixedValue : Option String
deriving DecidableEq, Repr

/-- The `scoring` object of a rule document. -/
structure Scoring where
  outcomeRules : List OutcomeRule
  scoreValue : Option ScoreValueCfg
deriving DecidableEq, Repr

/-- A loaded rule document (`loadRules` output). -/
structure RulesDoc where
  ruleSetName : String
  ruleSetVersion : String
  answerNormalization : NormOpts
  rules : List Rule
  scoring : Scoring
  ignoreQuestionKeys : List String
deriving DecidableEq, Repr

/-- An in-memory answer map (`Map` of question key to nullable answer value);
association list, first binding wins, as for a JS `Map` built without
overwrites. -/
abbrev AnswerMap := List (String × Option String)

/-- `answerMap.get(key) ?? null`: a missing key and a stored `null` both give
`none`. -/
def answerFor (am : AnswerMap) (k : String) : Option String :=
  (List.lookup k am).bind id

/-- `normalizeAnswer(value, options)` from the source: null passes through,
then optional trim, empty-to-null, lower-casing. -/
def normalizeAnswer (v : Option String) (o : NormOpts) : Option String :=
  match v with
  | none => none
  | some s =>
    let s1 := if o.trimAnswers then jsTrim s else s
    if o.emptyIsNull ∧ s1 = "" then none
    else some (if o.caseInsensitive then jsToLower s1 else s1)

/-- Per-rule normalisation options: document defaults overridden by the rule's
boolean `trim`/`caseInsensitive` fields (`emptyIsNull` has no rule override). -/
def resolveNormOpts (d : NormOpts) (nc : NonCompliantWhen) : NormOpts :=
  { trimAnswers := match nc.trimOverride with | some b => b | none => d.trimAnswers
    caseInsensitive := match nc.ciOverride with | some b => b | none => d.caseInsensitive
    emptyIsNull := d.emptyIsNull }

/-- The `switch (op)` of `evaluateRule`: is the (already normalised) answer
non-compliant? -/
def opHolds (nc : NonCompliantWhen) (answerNorm : Option String) (o : NormOpts) : Bool :=
  match nc.op with
  | .missing => answerNorm = none ∨ answerNorm = some ""
  | .equalsOp =>
    match normalizeAnswer nc.value o with
    | none => false
    | some e => answerNorm = some e
  | .inOp =>
    match answerNorm with
    | none => false
    | some a => (nc.values.getD []).any (fun v => normalizeAnswer (some v) o = some a)

/-- The finding object built by `evaluateRule` when a rule is non-compliant. -/
def mkFinding (r : Rule) (answerRaw : Option String) : Finding :=
  { questionKey := r.questionKey
    answerValue := answerRaw
    severity := r.finding.severity
    code := jsOrNull r.finding.code
    message := r.finding.message
    majorNonCompliantText :=
      if r.finding.severity = "Major" then r.finding.majorNonCompliantText else none
    minorNonCompliantText :=
      if r.finding.severity = "Minor" then r.finding.minorNonCompliantText else none }

/-- `evaluateRule(rule, answerMap, defaultNorm)`: skip disabled rules, fetch the
answer, normalise, test the operator, and build at most one finding. -/
def evaluateRule (r : Rule) (am : AnswerMap) (d : NormOpts) : Option Finding :=
  if r.enabled = some false then none
  else
    let o := resolveNormOpts d r.nonCompliantWhen
    let answerRaw := answerFor am r.questionKey
    let answerNorm := normalizeAnswer answerRaw o
    if opHolds r.nonCompliantWhen answerNorm o then some (mkFinding r answerRaw) else none

/-- Does a rule fire (enabled and operator holds)?  Factoring of the two guards
of `evaluateRule`. -/
def ruleFires (r : Rule) (am : AnswerMap) (d : NormOpts) : Bool :=
  r.enabled ≠ some false ∧
    opHolds r.nonCompliantWhen
      (normalizeAnswer (answerFor am r.questionKey) (resolveNormOpts d r.nonCompliantWhen))
      (resolveNormOpts d r.nonCompliantWhen)

/-- The scoring loop of `scoreReport`: fold the rules in declaration order,
collecting findings and the Major/Minor counts. -/
def runRules (rules : List Rule) (am : AnswerMap) (d : NormOpts) :
    List Finding × Nat × Nat :=
  rules.foldl
    (fun acc r =>
      match evaluateRule r am d with
      | none => acc
      | some f =>
        if f.severity = "Major" then (acc.1 ++ [f], acc.2.1 + 1, acc.2.2)
        else if f.severity = "Minor" then (acc.1 ++ [f], acc.2.1, acc.2.2 + 1)
        else (acc.1 ++ [f], acc.2.1, acc.2.2))
    ([], 0, 0)

/-- `when` matching for one outcome rule (the three `if`s of the source's
loop body, any of which returns the rule's outcome). -/
def whenMatches (w : WhenCond) (major minor : Int) : Bool :=
  w.always ||
    (match w.majorCountGte with | some n => major ≥ n | none => false) ||
    (match w.minorCountGte with | some n => minor ≥ n | none => false)

/-- `determineOutcome(scoring, majorCount, minorCount)`: first matching outcome
rule wins; `null` when none matches. -/
def determineOutcome (ors : List OutcomeRule) (major minor : Int) : Option String :=
  match ors with
  | [] => none
  | r :: rest =>
    if whenMatches r.whenCond major minor then some r.outcome
    else determineOutcome rest major minor

/-- JavaScript `x || 'Unknown'` on the nullable outcome: both `null` and the
empty string collapse to `"Unknown"`. -/
def jsOrUnknown (o : Option String) : String :=
  match o with
  | some s => if s = "" then "Unknown" else s
  | none => "Unknown"

/-- The outcome actually stored by `scoreReport`:
`determineOutcome(...) || 'Unknown'`. -/
def evalOutcome (sc : Scoring) (major minor : Int) : String :=
  jsOrUnknown (determineOutcome sc.outcomeRules major minor)

/-- Outcome as the specification's words describe it: the outcome of the first
matching outcome rule, defaulting to `"Unknown"` only when none matches.
Written for comparison against `evalOutcome`. -/
def specOutcomeC3 (sc : Scoring) (major minor : Int) : String :=
  (determineOutcome sc.outcomeRules major minor).getD "Unknown"

/-- `computeScoreValue(scoreValueConfig, outcome)`. -/
def computeScoreValue (cfg : Option ScoreValueCfg) (outcome : String) : Option String :=
  match cfg with
  | none => none
  | some c =>
    if c.fromSrc = "fixed" then c.fixedValue
    else if c.fromSrc = "outcome" then
      if c.typ = "text" then some outcome
      else if c.typ = "numeric" then some outcome
      else none
    else none

/-! ## Ingest stage

Instants are modelled as `Int` (milliseconds since the Unix epoch, the value
of a JS `Date`); the epoch default of `getWatermark` is `0`. Summary records
appear after field extraction (`getFirstDefined` + `parseCompletedAtValue`):
`reportId`/`completedAt` are `none` when missing or unparseable. -/

def ingestionJobName : String := "GoAuditsIngestion"

def enrichmentJobName : String := "GoAuditsEnrichment"

def scoringJobName : String := "GoAuditsScoring"

/-- A summary record after field extraction in `main`'s eligibility loop. -/
structure SummaryItem where
  reportId : Option String
  completedAt : Option Int
  certificationNumber : Option String
deriving DecidableEq, Repr

/-- An object pushed onto `eligible` (and later selected for ingest). -/
structure IngestItem where
  reportId : String
  completedAtUtc : Int
  certificationNumber : Option String
deriving DecidableEq, Repr

/-- The source's lower bound: `const lowerBound = startOverride || watermark;`
— a configured `GOAUDITS_START_DATE` takes precedence outright (a JS `Date`
object is always truthy), the watermark is used only when no override is set. -/
def lowerBoundOf (startOverride : Option Int) (watermark : Int) : Int :=
  match startOverride with
  | some s => s
  | none => watermark

/-- The lower bound as the specification's words describe it:
`max(startOverride, currentWatermark)`. Written for comparison against
`lowerBoundOf`. -/
def specLowerBoundC4 (startOverride : Option Int) (watermark : Int) : Int :=
  match startOverride with
  | some s => max s watermark
  | none => watermark

/-- The eligibility loop of `main`: drop records without a truthy `reportId`
or a parseable `completedAt`, drop `completedAt ≤ lowerBound`, drop
`completedAt > upperBound` when an upper bound is configured; otherwise build
the eligible item (an empty certification number collapses to `null`). -/
def eligibleItems (items : List SummaryItem) (lowerBound : Int)
    (upperBound : Option Int) : List IngestItem :=
  items.filterMap (fun it =>
    match it.reportId, it.completedAt with
    | some rid, some t =>
      if rid = "" then none
      else if t ≤ lowerBound then none
      else if (match upperBound with | some ub => decide (t > ub) | none => false) then none
      else some { reportId := rid, completedAtUtc := t,
                  certificationNumber := jsOrNull it.certificationNumber }
    | _, _ => none)

/-- Lexicographic order on character lists by code point (the model of the
`localeCompare` tiebreak; structurally recursive so it computes). -/
def charListLe : List Char → List Char → Bool
  | [], _ => true
  | _ :: _, [] => false
  | c :: cs, d :: ds =>
    if c.toNat < d.toNat then true
    else if d.toNat < c.toNat then false
    else charListLe cs ds

/-- Lexicographic string order by code point. -/
def strLe (a b : String) : Bool := charListLe a.data b.data

theorem charListLe_total : ∀ a b : List Char, charListLe a b = true ∨ charListLe b a = true
  | [], _ => Or.inl rfl
  | _ :: _, [] => Or.inr rfl
  | c :: cs, d :: ds => by
    by_cases h1 : c.toNat < d.toNat
    · left
      simp [charListLe, h1]
    · by_cases h2 : d.toNat < c.toNat
      · right
        simp [charListLe, h2]
      · rcases charListLe_total cs ds with h | h
        · left
          simp [charListLe, h1, h2, h]
        · right
          simp [charListLe, h1, h2, h]

theorem charListLe_trans :
    ∀ a b c : List Char, charListLe a b = true → charListLe b c = true →
      charListLe a c = true
  | [], _, _, _, _ => rfl
  | a :: as, [], _, h, _ => by simp [charListLe] at h
  | a :: as, b :: bs, [], _, h => by simp [charListLe] at h
  | a :: as, b :: bs, c :: cs, h1, h2 => by
    simp only [charListLe] at h1 h2 ⊢
    by_cases hab : a.toNat < b.toNat
    · by_cases hbc : b.toNat < c.toNat
      · rw [if_pos (by omega)]
      · rw [if_neg hbc] at h2
        by_cases hcb : c.toNat < b.toNat
        · rw [if_pos hcb] at h2
          cases h2
        · rw [if_pos (by omega)]
    · rw [if_neg hab] at h1
      by_cases hba : b.toNat < a.toNat
      · rw [if_pos hba] at h1
        cases h1
      · rw [if_neg hba] at h1
        by_cases hbc : b.toNat < c.toNat
        · rw [if_pos (by omega)]
        · rw [if_neg hbc] at h2
          by_cases hcb : c.toNat < b.toNat
          · rw [if_pos hcb] at h2
            cases h2
          · rw [if_neg hcb] at h2
            rw [if_neg (by omega), if_neg (by omega)]
            exact charListLe_trans as bs cs h1 h2

theorem strLe_total (a b : String) : strLe a b = true ∨ strLe b a = true :=
  charListLe_total a.data b.data

theorem strLe_trans {a b c : String} (h1 : strLe a b = true) (h2 : strLe b c = true) :
    strLe a c = true :=
  charListLe_trans a.data b.data c.data h1 h2

/-- The sort comparator of `main`: ascending by `completedAtUtc`, then by
`reportId` (the `localeCompare` tiebreak, modelled as code-point
lexicographic order). -/
def itemLE (a b : IngestItem) : Prop :=
  a.completedAtUtc < b.completedAtUtc ∨
    (a.completedAtUtc = b.completedAtUtc ∧ strLe a.reportId b.reportId = true)

instance : DecidableRel itemLE := fun a b => by unfold itemLE; infer_instance

instance : IsTotal IngestItem itemLE where
  total a b := by
    unfold itemLE
    rcases strLe_total a.reportId b.reportId with h | h
    · rcases lt_trichotomy a.completedAtUtc b.completedAtUtc with h2 | h2 | h2
      · exact Or.inl (Or.inl h2)
      · exact Or.inl (Or.inr ⟨h2, h⟩)
      · exact Or.inr (Or.inl h2)
    · rcases lt_trichotomy a.completedAtUtc b.completedAtUtc with h2 | h2 | h2
      · exact Or.inl (Or.inl h2)
      · exact Or.inr (Or.inr ⟨h2.symm, h⟩)
      · exact Or.inr (Or.inl h2)

instance : IsTrans IngestItem itemLE where
  trans a b c hab hbc := by
    unfold itemLE at *
    rcases hab with h1 | ⟨h1, h1s⟩ <;> rcases hbc with h2 | ⟨h2, h2s⟩
    · exact Or.inl (by omega)
    · exact Or.inl (by omega)
    · exact Or.inl (by omega)
    · exact Or.inr ⟨by omega, strLe_trans h1s h2s⟩

/-- `eligible.sort(...)`: a stable sort by the comparator (JS `Array.sort` is
stable; modelled by insertion sort). -/
def sortItems (l : List IngestItem) : List IngestItem := l.insertionSort itemLE

/-- Batch selection with tie expansion: take the first `batchSize` sorted
items, then keep appending further items while their `completedAtUtc` equals
that of the last selected item. -/
def selectBatch (sorted : List IngestItem) (batchSize : Nat) : List IngestItem :=
  let selected := sorted.take batchSize
  if selected.length > 0 ∧ sorted.length > selected.length then
    match selected.getLast? with
    | some last =>
      selected ++ (sorted.drop selected.length).takeWhile
        (fun it => decide (it.completedAtUtc = last.completedAtUtc))
    | none => selected
  else selected

/-- Sort plus selection, as `main` runs them over the eligible set. -/
def runBatchSelection (eligible : List IngestItem) (batchSize : Nat) : List IngestItem :=
  selectBatch (sortItems eligible) batchSize

/-- A row of `dbo.GoAuditsReports` (the columns the pipeline writes). -/
structure ReportRow where
  reportId : String
  completedAtUtc : Int
  certificationNumber : Option String
deriving DecidableEq, Repr

/-- The ingest-facing database state: the `ProcessedItems` ledger (primary key
`(JobName, ItemKey)`), the `GoAuditsReports` table (primary key
`GoAuditsReportId`) and the `JobWatermark` row for the ingestion job
(`none` when the row does not exist). -/
structure IngestDb where
  ledger : List (String × String)
  reports : List ReportRow
  watermarkRow : Option Int
deriving DecidableEq, Repr

/-- Does the ledger hold `(job, key)`? A second insert of this pair raises the
primary-key violation (SQL error 2627/2601) in the source. -/
def ledgerHas (db : IngestDb) (job key : String) : Bool :=
  db.ledger.any (fun e => e.1 = job ∧ e.2 = key)

/-- Does a report row with this id exist? -/
def reportHas (db : IngestDb) (rid : String) : Bool :=
  db.reports.any (fun r => r.reportId = rid)

/-- The ingest counters of the pipeline's `counts` object. -/
structure IngestCounts where
  ingested : Nat
  ingestAlreadyProcessed : Nat
  ingestFailedCount : Nat
deriving DecidableEq, Repr

/-- Counters at the start of a run. -/
def zeroIngestCounts : IngestCounts := ⟨0, 0, 0⟩

/-- The loop state of `ingestReports`. -/
structure IngestState where
  db : IngestDb
  counts : IngestCounts
  maxCompletedAtUtc : Option Int
  failedReportIds : List String
deriving DecidableEq, Repr

/-- The running-maximum update at the top of the `ingestReports` loop. -/
def bumpMax (m : Option Int) (t : Int) : Option Int :=
  match m with
  | none => some t
  | some v => if t > v then some t else some v

/-- The body of one `ingestReports` iteration, after the running-maximum
update. `fail` is the environment oracle for an unexpected SQL error inside
this item's transaction (the outer `catch`: rollback, count
`ingestFailedCount`, remember the id). A ledger primary-key collision rolls
back and commits nothing; a report-row collision after a fresh ledger insert
still commits (the ledger row is kept). In dry-run mode only the
`isProcessed` probe runs and nothing is written. -/
def ingestWork (fail : String → Bool) (dryRun : Bool) (st : IngestState)
    (item : IngestItem) : IngestState :=
  if dryRun then
    if ledgerHas st.db ingestionJobName item.reportId then
      { st with counts := { st.counts with
          ingestAlreadyProcessed := st.counts.ingestAlreadyProcessed + 1 } }
    else
      { st with counts := { st.counts with ingested := st.counts.ingested + 1 } }
  else if fail item.reportId then
    { st with
        counts := { st.counts with ingestFailedCount := st.counts.ingestFailedCount + 1 }
        failedReportIds := st.failedReportIds ++ [item.reportId] }
  else if ledgerHas st.db ingestionJobName item.reportId then
    { st with counts := { st.counts with
        ingestAlreadyProcessed := st.counts.ingestAlreadyProcessed + 1 } }
  else if reportHas { st.db with ledger := st.db.ledger ++ [(ingestionJobName, item.reportId)] }
      item.reportId then
    { st with
        db := { st.db with ledger := st.db.ledger ++ [(ingestionJobName, item.reportId)] }
        counts := { st.counts with
          ingestAlreadyProcessed := st.counts.ingestAlreadyProcessed + 1 } }
  else
    { st with
        db := { st.db with
          ledger := st.db.ledger ++ [(ingestionJobName, item.reportId)]
          reports := st.db.reports ++
            [⟨item.reportId, item.completedAtUtc, item.certificationNumber⟩] }
        counts := { st.counts with ingested := st.counts.ingested + 1 } }

/-- One iteration of the `ingestReports` loop: bump the running maximum at
the top (this happens for every item, before the transaction), then run the
transaction body. -/
def ingestOne (fail : String → Bool) (dryRun : Bool) (st : IngestState)
    (item : IngestItem) : IngestState :=
  ingestWork fail dryRun
    { st with maxCompletedAtUtc := bumpMax st.maxCompletedAtUtc item.completedAtUtc }
    item

/-- `ingestReports(pool, jobRunId, items, counts, dryRun)` over the item list. -/
def ingestReports (fail : String → Bool) (dryRun : Bool) (db : IngestDb)
    (items : List IngestItem) : IngestState :=
  items.foldl (ingestOne fail dryRun) ⟨db, zeroIngestCounts, none, []⟩

/-- `getWatermark`: the instant (Unix epoch when the row is absent) and the
row-existence flag. -/
def getWatermarkPair (db : IngestDb) : Int × Bool :=
  match db.watermarkRow with
  | none => (0, false)
  | some w => (w, true)

/-- The watermark value visible to a run. -/
def watermarkValue (db : IngestDb) : Int := (getWatermarkPair db).1

/-- The fold the pipeline's running maximum computes over a batch. -/
def maxCompletedAt (items : List IngestItem) : Option Int :=
  items.foldl (fun m it => bumpMax m it.completedAtUtc) none

/-- Ingest followed by the watermark update of `main`: upsert only when not a
dry run, a maximum exists (or the watermark row was absent) and no per-item
ingest transaction failed; the new value is the running maximum when it
exceeds the current watermark, the current watermark otherwise. -/
def ingestPhase (fail : String → Bool) (dryRun : Bool) (db : IngestDb)
    (selected : List IngestItem) : IngestDb × IngestCounts × List String :=
  let wm := getWatermarkPair db
  let st := ingestReports fail dryRun db selected
  if ¬dryRun ∧ (st.maxCompletedAtUtc.isSome ∨ ¬wm.2) ∧ st.counts.ingestFailedCount = 0 then
    let nextWatermark :=
      match st.maxCompletedAtUtc with
      | some m => if m > wm.1 then m else wm.1
      | none => wm.1
    ({ st.db with watermarkRow := some nextWatermark }, st.counts, st.failedReportIds)
  else (st.db, st.counts, st.failedReportIds)

/-! ## Certificate extraction (enrich stage) -/

/-- A row of a details response, restricted to the fields the embedded claims
touch (`RecordType`, `QUESTION_ID`, `Question`, `Answer`). -/
structure DetailRow where
  recordType : Option String
  questionId : Option String
  question : Option String
  answer : Option String
deriving DecidableEq, Repr

/-- The inner guard of `extractCertificate`'s loop:
`answer != null && String(answer).trim() !== ''`. -/
def answerNonBlank (v : Option String) : Bool :=
  match v with
  | some a => decide (jsTrim a ≠ "")
  | none => false

/-- `extractCertificate(rows)` from the source: scan the rows in order (there
is no `RecordType` filter), match on `QUESTION_ID === '1'` or
`/certificate number/i` against `Question`, and return the trimmed `Answer`
truncated to 100 characters — but only from a matching row whose answer is
non-null and non-blank; a matching row with a blank answer is passed over. -/
def extractCertificate : List DetailRow → Option String
  | [] => none
  | row :: rest =>
    let questionId := jsTrim (row.questionId.getD "")
    let questionText := row.question.getD ""
    if (questionId = "1" ∨ containsCI questionText "certificate number") ∧
        answerNonBlank row.answer then
      some (truncate (jsTrim (row.answer.getD "")) 100)
    else extractCertificate rest

/-- The matching predicate as the claim's words describe it: a `Detail` row
whose `QUESTION_ID` equals `"1"` or whose `Question` matches
`/certificate number/i`. Written for comparison against the source's scan. -/
def certClaimMatch (row : DetailRow) : Bool :=
  row.recordType = some "Detail" ∧
    (jsTrim (row.questionId.getD "") = "1" ∨
      containsCI (row.question.getD "") "certificate number")

/-- Certificate extraction as the claim's words describe it: trimmed,
truncated `Answer` of the first `Detail` row matching `certClaimMatch`,
`none` when no such row exists. Written for comparison against
`extractCertificate`. -/
def specExtractCertificateC6 (rows : List DetailRow) : Option String :=
  (rows.find? certClaimMatch).map (fun row => truncate (jsTrim (row.answer.getD "")) 100)

/-- What the source's scan actually selects: any-record-type match with a
non-null, non-blank answer. -/
def certCodeMatch (row : DetailRow) : Bool :=
  (jsTrim (row.questionId.getD "") = "1" ∨
      containsCI (row.question.getD "") "certificate number") ∧
    answerNonBlank row.answer

/-! ## Summary fetch classification and the run-level outcome -/

/-- The body of a 2xx summary response, after `response.json()`. -/
inductive SummaryBody
  | notJson
  | jsonArray (items : List SummaryItem)
  | jsonObject
deriving DecidableEq, Repr

/-- How one `fetchPage` attempt ends. -/
inductive FetchClass
  | fatalError
  | retryable
  | ok (items : List SummaryItem)
deriving DecidableEq, Repr

/-- Classification of one summary-fetch attempt in `fetchPage`: 401/403 are
fatal; 429/5xx are retried; any other non-2xx is fatal; a 2xx body that is
not valid JSON is fatal; a 2xx JSON array yields its items; a 2xx JSON
non-array yields an **empty** item list (`return { items: [], keys: ... }`). -/
def classifySummaryAttempt (status : Nat) (body : SummaryBody) : FetchClass :=
  if status = 401 ∨ status = 403 then .fatalError
  else if status = 429 ∨ (500 ≤ status ∧ status ≤ 599) then .retryable
  else if ¬(200 ≤ status ∧ status ≤ 299) then .fatalError
  else
    match body with
    | .notJson => .fatalError
    | .jsonArray items => .ok items
    | .jsonObject => .ok []

/-- A run's recorded end: `JobRunHistory.Status` and the process exit code. -/
structure RunEnd where
  status : String
  exitCode : Nat
deriving DecidableEq, Repr

/-- The part of `main` that the summary classification alone decides: a fatal
error is caught and recorded `Failed` with exit 1; a successful fetch whose
eligible selection is empty records `Succeeded` with exit 0; otherwise
(`none`) the run continues into ingest and per-item work (or the attempt is
retried). -/
def runAfterSummary (cls : FetchClass) (lowerBound : Int) (upperBound : Option Int)
    (batchSize : Nat) : Option RunEnd :=
  match cls with
  | .fatalError => some ⟨"Failed", 1⟩
  | .retryable => none
  | .ok items =>
    if (runBatchSelection (eligibleItems items lowerBound upperBound) batchSize).isEmpty then
      some ⟨"Succeeded", 0⟩
    else none

/-! ## Score stage

The scoring transaction is embedded deterministically: the only SQL errors it
distinguishes are the primary-key collisions, which are decided by the state;
the `scoreFailedCount` path fires only on unexpected database errors, which
do not arise in the model. -/

/-- `normalizeQuestionKeyValue(value)`: trim, empty collapses to `null`. -/
def normalizeQuestionKeyValue (v : Option String) : Option String :=
  match v with
  | none => none
  | some s =>
    let n := jsTrim s
    if n = "" then none else some n

/-- Add a (normalised) key to a set modelled as a duplicate-free list. -/
def addKey (l : List String) (v : Option String) : List String :=
  match normalizeQuestionKeyValue v with
  | some n => if l.contains n then l else l ++ [n]
  | none => l

/-- `extractRulesetQuestionKeys(rulesDoc)`: the union of every rule's
`questionKeysAny` plus the document's `ignoreQuestionKeys`, each entry
normalised. -/
def extractRulesetQuestionKeys (doc : RulesDoc) : List String :=
  let k1 := doc.rules.foldl
    (fun acc r => r.questionKeysAny.foldl (fun a k => addKey a (some k)) acc) []
  doc.ignoreQuestionKeys.foldl (fun a k => addKey a (some k)) k1

/-- A row of `dbo.GoAuditsFindings` (primary key: report, rule set name,
version, question key). -/
structure FindingRow where
  reportId : String
  ruleSetName : String
  ruleSetVersion : String
  questionKey : String
  answerValue : Option String
  findingSeverity : String
  findingCode : Option String
  majorNonCompliantText : Option String
  minorNonCompliantText : Option String
deriving DecidableEq, Repr

/-- A row of `dbo.GoAuditsScores` (primary key: report, rule set name,
version). -/
structure ScoreRow where
  reportId : String
  ruleSetName : String
  ruleSetVersion : String
  majorCount : Nat
  minorCount : Nat
  scoreValue : Option String
  outcome : String
deriving DecidableEq, Repr

/-- The scoring-facing database state. -/
structure ScoreDb where
  ledger : List (String × String)
  findings : List FindingRow
  scores : List ScoreRow
deriving DecidableEq, Repr

/-- The scoring counters of the pipeline's `counts` object. -/
structure ScoreCounts where
  scoreProcessed : Nat
  scoreAlreadyProcessed : Nat
  skippedNotEligible : Nat
  findingsInsertedCount : Nat
  majorCountTotal : Nat
  minorCountTotal : Nat
deriving DecidableEq, Repr

/-- Scoring counters at the start of a run. -/
def zeroScoreCounts : ScoreCounts := ⟨0, 0, 0, 0, 0, 0⟩

/-- Ledger membership on the scoring-facing state. -/
def scoreLedgerHas (db : ScoreDb) (job key : String) : Bool :=
  db.ledger.any (fun e => e.1 = job ∧ e.2 = key)

/-- Key test for `dbo.GoAuditsFindings`. -/
def findingRowHas (l : List FindingRow) (rid name ver qk : String) : Bool :=
  l.any (fun f => f.reportId = rid ∧ f.ruleSetName = name ∧
    f.ruleSetVersion = ver ∧ f.questionKey = qk)

/-- Key test for `dbo.GoAuditsScores`. -/
def scoreRowHas (l : List ScoreRow) (rid name ver : String) : Bool :=
  l.any (fun s => s.reportId = rid ∧ s.ruleSetName = name ∧ s.ruleSetVersion = ver)

/-- Insert a finding row; on a primary-key collision run the coalescing
update that back-fills only a currently-null severity-text column. The flag
reports whether a fresh row was inserted (`findingsInsertedCount`). -/
def insertFindingOrCoalesce (l : List FindingRow) (f : FindingRow) :
    List FindingRow × Bool :=
  if findingRowHas l f.reportId f.ruleSetName f.ruleSetVersion f.questionKey then
    (l.map (fun g =>
      if g.reportId = f.reportId ∧ g.ruleSetName = f.ruleSetName ∧
          g.ruleSetVersion = f.ruleSetVersion ∧ g.questionKey = f.questionKey then
        { g with majorNonCompliantText := g.majorNonCompliantText <|> f.majorNonCompliantText
                 minorNonCompliantText := g.minorNonCompliantText <|> f.minorNonCompliantText }
      else g), false)
  else (l ++ [f], true)

/-- Upsert the score row: insert on first scoring, overwrite counts, score
value and outcome on a collision. -/
def upsertScore (l : List ScoreRow) (s : ScoreRow) : List ScoreRow :=
  if scoreRowHas l s.reportId s.ruleSetName s.ruleSetVersion then
    l.map (fun g =>
      if g.reportId = s.reportId ∧ g.ruleSetName = s.ruleSetName ∧
          g.ruleSetVersion = s.ruleSetVersion then
        { g with majorCount := s.majorCount, minorCount := s.minorCount,
                 scoreValue := s.scoreValue, outcome := s.outcome }
      else g)
  else l ++ [s]

/-- The finding row written for an evaluator finding. -/
def mkFindingRow (reportId name ver : String) (f : Finding) : FindingRow :=
  ⟨reportId, name, ver, f.questionKey, f.answerValue, f.severity, f.code,
    f.majorNonCompliantText, f.minorNonCompliantText⟩

/-- The scoring-eligibility probe of `scoreReport`: does any answer-map key
normalise into the rule set's eligibility key set? -/
def answerMapEligible (am : AnswerMap) (rulesetKeys : List String) : Bool :=
  am.any (fun kv =>
    match normalizeQuestionKeyValue (some kv.1) with
    | some n => rulesetKeys.contains n
    | none => false)

/-- `scoreReport`: begin a transaction, insert the scoring ledger row first
(a collision rolls back and counts `scoreAlreadyProcessed`); then check
eligibility — an ineligible item **commits** the transaction holding only the
ledger row and counts `skippedNotEligible`; otherwise evaluate the rules,
insert/coalesce findings, upsert the score row and commit. -/
def scoreReport (db : ScoreDb) (c : ScoreCounts) (reportId rulesetName rulesetVersion : String)
    (doc : RulesDoc) (am : AnswerMap) : ScoreDb × ScoreCounts :=
  let processedKey := reportId ++ "|" ++ rulesetName ++ "|" ++ rulesetVersion
  if scoreLedgerHas db scoringJobName processedKey then
    (db, { c with scoreAlreadyProcessed := c.scoreAlreadyProcessed + 1 })
  else
    let db1 := { db with ledger := db.ledger ++ [(scoringJobName, processedKey)] }
    if ¬answerMapEligible am (extractRulesetQuestionKeys doc) then
      (db1, { c with skippedNotEligible := c.skippedNotEligible + 1 })
    else
      let res := runRules doc.rules am doc.answerNormalization
      let majorCount := res.2.1
      let minorCount := res.2.2
      let outcome := evalOutcome doc.scoring (majorCount : Int) (minorCount : Int)
      let scoreValue := computeScoreValue doc.scoring.scoreValue outcome
      let ins := res.1.foldl
        (fun (acc : List FindingRow × Nat) f =>
          let step := insertFindingOrCoalesce acc.1 (mkFindingRow reportId rulesetName rulesetVersion f)
          (step.1, acc.2 + (if step.2 then 1 else 0)))
        (db1.findings, 0)
      let db2 := { db1 with
        findings := ins.1
        scores := upsertScore db1.scores
          ⟨reportId, rulesetName, rulesetVersion, majorCount, minorCount, scoreValue, outcome⟩ }
      (db2, { c with
        scoreProcessed := c.scoreProcessed + 1
        findingsInsertedCount := c.findingsInsertedCount + ins.2
        majorCountTotal := c.majorCountTotal + majorCount
        minorCountTotal := c.minorCountTotal + minorCount })

/-! ## E-mail outbox materialiser

The lookup tables (`Installation` keyed by certificate number, `Installer`
keyed by `ID`) are external-domain tables; they are modelled with at most one
matching row per key, consistent with their key constraints, so each `LEFT
JOIN` is a `find?`. -/

/-- A row of `dbo.GoAuditsScores` as the materialiser reads it. -/
structure EoScore where
  reportId : String
  ruleSetName : String
  ruleSetVersion : String
deriving DecidableEq, Repr

/-- A row of `dbo.GoAuditsReports` as the materialiser reads it. -/
structure EoReport where
  reportId : String
  certificationNumber : Option String
deriving DecidableEq, Repr

/-- A row of the external `dbo.Installation` lookup. -/
structure Installation where
  certificateNumber : String
  installerId : String
deriving DecidableEq, Repr

/-- A row of the external `dbo.Installer` lookup. -/
structure Installer where
  id : String
  email : Option String
  name : Option String
deriving DecidableEq, Repr

/-- A row of `dbo.GoAuditsEmailOutbox` (the columns the materialiser writes). -/
structure OutboxRow where
  status : String
  attemptCount : Nat
  reportId : String
  ruleSetName : String
  ruleSetVersion : String
  certificateNumber : Option String
  recipientEmail : Option String
  companyName : Option String
  templateName : String
deriving DecidableEq, Repr

/-- The materialiser-facing database state. -/
structure EoDb where
  scores : List EoScore
  reports : List EoReport
  installations : List Installation
  installers : List Installer
  outbox : List OutboxRow
deriving DecidableEq, Repr

/-- The `options` object of `materialiseEmailOutbox` (after `batchSize`
resolution). -/
structure EoOptions where
  scope : Option String
  reportIds : Option (List String)
  batchSize : Nat
deriving DecidableEq, Repr

/-- The `{ inserted, skippedAlreadyExists, missingRecipient }` result. -/
structure EoResult where
  inserted : Nat
  skippedAlreadyExists : Nat
  missingRecipient : Nat
deriving DecidableEq, Repr

/-- `String(options.scope || 'all').trim().toLowerCase()`. -/
def normalizeScope (scope : Option String) : String :=
  jsToLower (jsTrim (match jsOrNull scope with | some s => s | none => "all"))

/-- `normalizeReportIds(reportIds)`: trimmed, non-empty, de-duplicated. -/
def normalizeReportIds (ids : Option (List String)) : List String :=
  (ids.getD []).foldl
    (fun acc id =>
      let n := jsTrim id
      if n = "" then acc else if acc.contains n then acc else acc ++ [n]) []

/-- Is `(reportId, ruleSetName, ruleSetVersion)` already in the outbox
(the `NOT EXISTS`/`EXISTS` sub-queries)? -/
def outboxHasKey (outbox : List OutboxRow) (rid name ver : String) : Bool :=
  outbox.any (fun o => o.reportId = rid ∧ o.ruleSetName = name ∧ o.ruleSetVersion = ver)

/-- The `LEFT JOIN` chain to the installer: certificate number matched
case-insensitively (`COLLATE Latin1_General_CI_AS`), a null certificate
matches nothing. -/
def installerFor (db : EoDb) (cert : Option String) : Option Installer :=
  (cert.bind (fun c =>
    db.installations.find? (fun i => jsToLower i.certificateNumber = jsToLower c))).bind
    (fun inst => db.installers.find? (fun i => i.id = inst.installerId))

/-- The `CASE` expression choosing `TemplateName`. -/
def templateNameFor (name ver : String) : String :=
  if name = "PV" ∧ ver = "v2" then "GoAudits_PV_v2_Result"
  else if name = "HeatPump" ∧ ver = "v3" then "GoAudits_HeatPump_v3_Result"
  else "GoAudits_" ++ name ++ "_" ++ ver ++ "_Result"

/-- Descending `ORDER BY s.GoAuditsReportId DESC`. -/
def scoreDescLE (a b : EoScore) : Prop := strLe b.reportId a.reportId = true

instance : DecidableRel scoreDescLE := fun a b => by unfold scoreDescLE; infer_instance

/-- The `Src` common table expression: scores joined to their report, batch
restriction applied when requested, not-already-in-outbox, ordered by report
id descending, first `batchSize` rows. -/
def srcScores (db : EoDb) (batchIds : Option (List String)) (batchSize : Nat) :
    List (EoScore × EoReport) :=
  ((db.scores.insertionSort scoreDescLE).filterMap (fun s =>
    match db.reports.find? (fun r => r.reportId = s.reportId) with
    | some r =>
      let inBatch : Bool := match batchIds with
        | some ids => ids.contains s.reportId
        | none => true
      if inBatch ∧ ¬outboxHasKey db.outbox s.reportId s.ruleSetName s.ruleSetVersion then
        some (s, r)
      else none
    | none => none)).take batchSize

/-- The outbox row inserted for one `Src` candidate: status `'Pending'`,
attempt count `0`, recipient and company from the (possibly empty) installer
join — there is no filter on a missing e-mail address. -/
def mkOutboxRow (db : EoDb) (s : EoScore) (r : EoReport) : OutboxRow :=
  let ins := installerFor db r.certificationNumber
  { status := "Pending", attemptCount := 0,
    reportId := s.reportId, ruleSetName := s.ruleSetName,
    ruleSetVersion := s.ruleSetVersion,
    certificateNumber := r.certificationNumber,
    recipientEmail := ins.bind (fun i => i.email),
    companyName := ins.bind (fun i => i.name),
    templateName := templateNameFor s.ruleSetName s.ruleSetVersion }

/-- `useBatchIds ? reportIds : null`: the batch restriction passed into the
query when the batch scope is in effect with a non-empty id set. -/
def eoBatchIds (opts : EoOptions) : Option (List String) :=
  if normalizeScope opts.scope = "batch" ∧ ¬(normalizeReportIds opts.reportIds).isEmpty then
    some (normalizeReportIds opts.reportIds)
  else none

/-- `materialiseEmailOutbox(pool, options)`. The SQL declares
`@MissingRecipient INT = 0` and never assigns it, so the returned
`missingRecipient` is always the literal zero; `@SkippedAlreadyExists` is
computed only when the batch scope is in effect (in the non-early-return
branch, `useBatchIds` is equivalent to `scope === 'batch'`). -/
def materialiseEmailOutbox (db : EoDb) (opts : EoOptions) : EoResult × EoDb :=
  if normalizeScope opts.scope = "batch" ∧ (normalizeReportIds opts.reportIds).isEmpty then
    (⟨0, 0, 0⟩, db)
  else
    (⟨(srcScores db (eoBatchIds opts) opts.batchSize).length,
      (if normalizeScope opts.scope = "batch" then
        (db.scores.filter (fun s =>
          (normalizeReportIds opts.reportIds).contains s.reportId ∧
            outboxHasKey db.outbox s.reportId s.ruleSetName s.ruleSetVersion)).length
      else 0), 0⟩,
      { db with outbox := db.outbox ++
          ((srcScores db (eoBatchIds opts) opts.batchSize).map
            (fun p => mkOutboxRow db p.1 p.2)) })

/-! ## SHA-1

`normalizeQuestionKey` hashes over-long derived keys with
`createHash('sha1')`; the algorithm is embedded in full over `Nat` with
explicit reduction modulo `2^32`. Bytes are `Nat` values below 256. -/

/-- Reduce to a 32-bit word. -/
def w32 (n : Nat) : Nat := n % 4294967296

/-- Rotate a 32-bit word left by `n`. -/
def rotl (x n : Nat) : Nat := w32 (Nat.lor (w32 (x <<< n)) (x >>> (32 - n)))

/-- UTF-8 encoding of one character as bytes. -/
def utf8EncodeCharNat (c : Char) : List Nat :=
  let n := c.toNat
  if n < 128 then [n]
  else if n < 2048 then [192 + n / 64, 128 + n % 64]
  else if n < 65536 then [224 + n / 4096, 128 + n / 64 % 64, 128 + n % 64]
  else [240 + n / 262144, 128 + n / 4096 % 64, 128 + n / 64 % 64, 128 + n % 64]

/-- UTF-8 bytes of a string (what `createHash(...).update(str)` consumes). -/
def utf8Bytes (s : String) : List Nat :=
  s.data.foldr (fun c acc => utf8EncodeCharNat c ++ acc) []

/-- Big-endian byte expansion, `k` bytes. -/
def beBytes (n k : Nat) : List Nat :=
  (List.range k).map (fun i => n / 2 ^ (8 * (k - 1 - i)) % 256)

/-- SHA-1 message padding: `0x80`, zero bytes to 56 mod 64, then the bit
length in 8 big-endian bytes. -/
def sha1Pad (msg : List Nat) : List Nat :=
  msg ++ [128] ++ List.replicate ((119 - msg.length % 64) % 64) 0 ++ beBytes (8 * msg.length) 8

/-- Split into 64-byte blocks: the fuel counts the bytes still free in the
chunk under construction (held reversed in the accumulator). -/
def chunks64Go : List Nat → Nat → List Nat → List (List Nat)
  | [], _, acc => if acc = [] then [] else [acc.reverse]
  | b :: rest, 1, acc => (b :: acc).reverse :: chunks64Go rest 64 []
  | b :: rest, fuel, acc => chunks64Go rest (fuel - 1) (b :: acc)

/-- Split into 64-byte blocks. -/
def chunks64 (l : List Nat) : List (List Nat) := chunks64Go l 64 []

/-- Big-endian 32-bit words of a 64-byte block. -/
def wordsOfBlock : List Nat → List Nat
  | a :: b :: c :: d :: rest => (((a * 256 + b) * 256 + c) * 256 + d) :: wordsOfBlock rest
  | _ => []

/-- Message-schedule extension: starting from the reversed 16-word list,
prepend `rotl (w[t-3] xor w[t-8] xor w[t-14] xor w[t-16]) 1` the given number
of times, then un-reverse. -/
def sha1ExtendLoop : Nat → List Nat → List Nat
  | 0, acc => acc.reverse
  | n + 1, acc =>
    sha1ExtendLoop n
      (rotl (Nat.xor (Nat.xor ((acc.get? 2).getD 0) ((acc.get? 7).getD 0))
        (Nat.xor ((acc.get? 13).getD 0) ((acc.get? 15).getD 0))) 1 :: acc)

/-- The 80-word message schedule of one block. -/
def sha1Schedule (ws : List Nat) : List Nat := sha1ExtendLoop 64 ws.reverse

/-- The round function `f` of SHA-1. -/
def sha1F (t b c d : Nat) : Nat :=
  if t < 20 then Nat.lor (Nat.land b c) (Nat.land (Nat.xor b 4294967295) d)
  else if t < 40 then Nat.xor b (Nat.xor c d)
  else if t < 60 then Nat.lor (Nat.lor (Nat.land b c) (Nat.land b d)) (Nat.land c d)
  else Nat.xor b (Nat.xor c d)

/-- The round constants `K` of SHA-1. -/
def sha1K (t : Nat) : Nat :=
  if t < 20 then 1518500249
  else if t < 40 then 1859775393
  else if t < 60 then 2400959708
  else 3395469782

/-- The five 32-bit words of SHA-1 state. -/
structure Sha1State where
  h0 : Nat
  h1 : Nat
  h2 : Nat
  h3 : Nat
  h4 : Nat
deriving DecidableEq, Repr

/-- SHA-1 initial state. -/
def sha1Init : Sha1State := ⟨1732584193, 4023233417, 2562383102, 271733878, 3285377520⟩

/-- Compress one 64-byte block into the state. -/
def sha1Compress (h : Sha1State) (block : List Nat) : Sha1State :=
  let ws := sha1Schedule (wordsOfBlock block)
  let final := ws.enum.foldl
    (fun (st : Sha1State) (tw : Nat × Nat) =>
      let temp := w32 (rotl st.h0 5 + sha1F tw.1 st.h1 st.h2 st.h3 + st.h4 + sha1K tw.1 + tw.2)
      ⟨temp, st.h0, rotl st.h1 30, st.h2, st.h3⟩)
    h
  ⟨w32 (h.h0 + final.h0), w32 (h.h1 + final.h1), w32 (h.h2 + final.h2),
    w32 (h.h3 + final.h3), w32 (h.h4 + final.h4)⟩

/-- The 20-byte SHA-1 digest of a byte message. -/
def sha1Bytes (msg : List Nat) : List Nat :=
  let f := (chunks64 (sha1Pad msg)).foldl sha1Compress sha1Init
  beBytes f.h0 4 ++ beBytes f.h1 4 ++ beBytes f.h2 4 ++ beBytes f.h3 4 ++ beBytes f.h4 4

/-- Lower-case hexadecimal digit. -/
def hexDigitChar (n : Nat) : Char :=
  if n < 10 then Char.ofNat (48 + n) else Char.ofNat (87 + n)

/-- Lower-case hexadecimal rendering of a byte list (two digits per byte),
the `digest('hex')` format. -/
def bytesToHexChars (bs : List Nat) : List Char :=
  bs.foldr (fun b acc => hexDigitChar (b / 16 % 16) :: hexDigitChar (b % 16) :: acc) []

/-- `createHash('sha1').update(s).digest('hex')` as a character list. -/
def sha1HexChars (s : String) : List Char := bytesToHexChars (sha1Bytes (utf8Bytes s))

/-! ## Question-key derivation -/

/-- Single pass of `.replace(/\s+/g, ' ')`: the flag records whether the
scanner is inside a whitespace run (whose single space was already emitted). -/
def collapseWsGo : Bool → List Char → List Char
  | _, [] => []
  | inWs, c :: cs =>
    if isJsWs c then
      if inWs then collapseWsGo true cs else ' ' :: collapseWsGo true cs
    else c :: collapseWsGo false cs

/-- `.replace(/\s+/g, ' ')`: collapse each whitespace run to one space. -/
def collapseWs (l : List Char) : List Char := collapseWsGo false l

/-- Single pass of `.replace(/[^a-z0-9]+/g, '_')`: the flag records whether
the scanner is inside a non-alphanumeric run (whose underscore was already
emitted). -/
def replaceNonAlnumGo : Bool → List Char → List Char
  | _, [] => []
  | inRun, c :: cs =>
    if isLowerAlnum c then c :: replaceNonAlnumGo false cs
    else if inRun then replaceNonAlnumGo true cs
    else '_' :: replaceNonAlnumGo true cs

/-- `.replace(/[^a-z0-9]+/g, '_')`: collapse each run outside `[a-z0-9]` to a
single underscore. -/
def replaceNonAlnum (l : List Char) : List Char := replaceNonAlnumGo false l

/-- `.replace(/^_+|_+$/g, '')`: strip leading and trailing underscores. -/
def trimUnderscores (l : List Char) : List Char :=
  ((l.dropWhile (fun c => c = '_')).reverse.dropWhile (fun c => c = '_')).reverse

/-- The text-normalisation pipeline of `normalizeQuestionKey`: lower-case,
collapse whitespace, trim, underscore non-alphanumeric runs, strip edge
underscores. -/
def deriveKeyChars (t : String) : List Char :=
  trimUnderscores (replaceNonAlnum (trimChars (collapseWs (lowerList t.data))))

/-- The text branch of `normalizeQuestionKey`: `null` for a falsy or
fully-normalised-away question text; the normalised key when it fits in 256
characters; otherwise its 215-character head, an underscore and the 40
hexadecimal characters of the SHA-1 of the normalised key. -/
def questionKeyFromText (questionText : Option String) : Option String :=
  match questionText with
  | none => none
  | some t =>
    if t = "" then none
    else if (deriveKeyChars t).isEmpty then none
    else if (deriveKeyChars t).length ≤ 256 then some ⟨deriveKeyChars t⟩
    else
      some ⟨(deriveKeyChars t).take
          (256 - (sha1HexChars ⟨deriveKeyChars t⟩).length - 1) ++
        '_' :: sha1HexChars ⟨deriveKeyChars t⟩⟩

/-- `normalizeQuestionKey(questionId, questionText)`: a truthy question id
with a non-blank trim is returned trimmed (with **no** length bound);
otherwise the key is derived from the question text. -/
def normalizeQuestionKey (questionId : Option String) (questionText : Option String) :
    Option String :=
  match questionId with
  | some q =>
    if q ≠ "" ∧ jsTrim q ≠ "" then some (jsTrim q)
    else questionKeyFromText questionText
  | none => questionKeyFromText questionText

/-! # Theorems -/

/-! ## C4 — ingest eligibility lower bound -/

/-- A summary item sitting between an early start override (5) and the
current watermark (10). -/
def c4Item : SummaryItem := ⟨some "R1", some 7, none⟩

/-- C4 counterexample: with `GOAUDITS_START_DATE` configured earlier (5) than
the current watermark (10), the code's lower bound is the override alone, so
an item completed at 7 — at or below the watermark — **is** selected, while
the claim's `max(startOverride, currentWatermark)` bound would drop it. -/
theorem c4_counterexample :
    lowerBoundOf (some 5) 10 = 5 ∧
    specLowerBoundC4 (some 5) 10 = 10 ∧
    eligibleItems [c4Item] (lowerBoundOf (some 5) 10) none =
      [{ reportId := "R1", completedAtUtc := 7, certificationNumber := none }] ∧
    eligibleItems [c4Item] (specLowerBoundC4 (some 5) 10) none = [] := by
  refine ⟨rfl, rfl, ?_, ?_⟩ <;> decide

/-- C4 (amended): during ingest eligibility filtering, the lower bound is the
start override when one is configured and the current watermark otherwise
(`startOverride || watermark`, not a maximum); an item is selected exactly
when it carries a truthy report id and a parseable completion instant, its
completion instant exceeds that lower bound, and it does not exceed a
configured upper bound. In particular a start override earlier than the
watermark re-selects items at or below the watermark. -/
theorem c4_amended (items : List SummaryItem) (startOverride : Option Int)
    (watermark : Int) (upperBound : Option Int) (x : IngestItem) :
    x ∈ eligibleItems items (lowerBoundOf startOverride watermark) upperBound ↔
      ∃ it ∈ items, it.reportId = some x.reportId ∧ x.reportId ≠ "" ∧
        it.completedAt = some x.completedAtUtc ∧
        x.certificationNumber = jsOrNull it.certificationNumber ∧
        lowerBoundOf startOverride watermark < x.completedAtUtc ∧
        (∀ ub, upperBound = some ub → x.completedAtUtc ≤ ub) := by
  rw [eligibleItems, List.mem_filterMap]
  constructor
  · rintro ⟨it, hmem, hf⟩
    refine ⟨it, hmem, ?_⟩
    rcases hrid : it.reportId with _ | rid
    · rw [hrid] at hf; cases hf
    rcases hca : it.completedAt with _ | t
    · rw [hrid, hca] at hf; cases hf
    rw [hrid, hca] at hf
    simp only at hf
    by_cases h1 : rid = ""
    · rw [if_pos h1] at hf; cases hf
    rw [if_neg h1] at hf
    by_cases h2 : t ≤ lowerBoundOf startOverride watermark
    · rw [if_pos h2] at hf; cases hf
    rw [if_neg h2] at hf
    rcases upperBound with _ | ub
    · replace hf : (if (false = true) then (none : Option IngestItem)
          else some ⟨rid, t, jsOrNull it.certificationNumber⟩) = some x := hf
      rw [if_neg (by simp)] at hf
      obtain rfl : x = ⟨rid, t, jsOrNull it.certificationNumber⟩ := (Option.some.inj hf).symm
      refine ⟨rfl, h1, rfl, rfl, ?_, ?_⟩
      · show lowerBoundOf startOverride watermark < t
        omega
      · intro u hu
        cases hu
    · replace hf : (if (decide (t > ub) = true) then (none : Option IngestItem)
          else some ⟨rid, t, jsOrNull it.certificationNumber⟩) = some x := hf
      by_cases h3 : t > ub
      · rw [if_pos (by simpa using h3)] at hf; cases hf
      · rw [if_neg (by simpa using h3)] at hf
        obtain rfl : x = ⟨rid, t, jsOrNull it.certificationNumber⟩ := (Option.some.inj hf).symm
        refine ⟨rfl, h1, rfl, rfl, ?_, ?_⟩
        · show lowerBoundOf startOverride watermark < t
          omega
        · intro u hu
          obtain rfl : ub = u := Option.some.inj hu
          show t ≤ ub
          omega
  · rintro ⟨it, hmem, hrid, hne, hca, hcert, hlb, hub⟩
    refine ⟨it, hmem, ?_⟩
    rw [hrid, hca]
    have h2 : ¬x.completedAtUtc ≤ lowerBoundOf startOverride watermark := by omega
    rcases upperBound with _ | ub
    · simp only [if_neg hne, if_neg h2, Bool.false_eq_true, if_false]
      rw [← hcert]
    · have h3 : ¬(decide (x.completedAtUtc > ub) = true) := by
        have := hub ub rfl
        simp only [decide_eq_true_eq]
        omega
      simp only [if_neg hne, if_neg h2, if_neg h3]
      rw [← hcert]

/-! ## C3 — evaluator round trip -/

/-- `evaluateRule` in guarded form: a finding exactly when the rule fires. -/
theorem evaluateRule_eq_if (r : Rule) (am : AnswerMap) (d : NormOpts) :
    evaluateRule r am d =
      if ruleFires r am d then some (mkFinding r (answerFor am r.questionKey)) else none := by
  unfold evaluateRule ruleFires
  by_cases h1 : r.enabled = some false
  · simp [h1]
  · by_cases h2 : opHolds r.nonCompliantWhen
        (normalizeAnswer (answerFor am r.questionKey) (resolveNormOpts d r.nonCompliantWhen))
        (resolveNormOpts d r.nonCompliantWhen) = true
    · simp [h1, h2]
    · simp [h1, h2]

/-- `filterMap` of a guarded `some` is `filter` plus `map`. -/
theorem filterMap_guard_eq_filter_map {α β : Type} (p : α → Bool) (g : α → β) :
    ∀ l : List α,
      l.filterMap (fun a => if p a then some (g a) else none) = (l.filter p).map g
  | [] => rfl
  | a :: l => by
    by_cases h : p a
    · simp [List.filterMap_cons, List.filter_cons, h, filterMap_guard_eq_filter_map p g l]
    · simp [List.filterMap_cons, List.filter_cons, h, filterMap_guard_eq_filter_map p g l]

/-- The scoring fold, with a generalised accumulator: it appends the
filter-mapped findings and adds the per-severity counts. -/
theorem runRules_go (am : AnswerMap) (d : NormOpts) :
    ∀ (rules : List Rule) (fs : List Finding) (M m : Nat),
      rules.foldl
        (fun acc r =>
          match evaluateRule r am d with
          | none => acc
          | some f =>
            if f.severity = "Major" then (acc.1 ++ [f], acc.2.1 + 1, acc.2.2)
            else if f.severity = "Minor" then (acc.1 ++ [f], acc.2.1, acc.2.2 + 1)
            else (acc.1 ++ [f], acc.2.1, acc.2.2))
        (fs, M, m) =
      (fs ++ rules.filterMap (fun r => evaluateRule r am d),
        M + ((rules.filterMap (fun r => evaluateRule r am d)).filter
          (fun f => f.severity = "Major")).length,
        m + ((rules.filterMap (fun r => evaluateRule r am d)).filter
          (fun f => f.severity = "Minor")).length)
  | [], fs, M, m => by simp
  | r :: rules, fs, M, m => by
    rcases hev : evaluateRule r am d with _ | f
    · have hfm : List.filterMap (fun r => evaluateRule r am d) (r :: rules) =
          List.filterMap (fun r => evaluateRule r am d) rules :=
        List.filterMap_cons_none hev
      rw [List.foldl_cons, hfm]
      have hstep : (match evaluateRule r am d with
          | none => (fs, M, m)
          | some f =>
            if f.severity = "Major" then (fs ++ [f], M + 1, m)
            else if f.severity = "Minor" then (fs ++ [f], M, m + 1)
            else (fs ++ [f], M, m)) = (fs, M, m) := by rw [hev]
      rw [hstep]
      exact runRules_go am d rules fs M m
    · have hfm : List.filterMap (fun r => evaluateRule r am d) (r :: rules) =
          f :: List.filterMap (fun r => evaluateRule r am d) rules :=
        List.filterMap_cons_some hev
      rw [List.foldl_cons, hfm]
      have hstep : (match evaluateRule r am d with
          | none => (fs, M, m)
          | some f =>
            if f.severity = "Major" then (fs ++ [f], M + 1, m)
            else if f.severity = "Minor" then (fs ++ [f], M, m + 1)
            else (fs ++ [f], M, m)) =
          (if f.severity = "Major" then (fs ++ [f], M + 1, m)
            else if f.severity = "Minor" then (fs ++ [f], M, m + 1)
            else (fs ++ [f], M, m)) := by rw [hev]
      rw [hstep]
      by_cases hMaj : f.severity = "Major"
      · have hMin : decide (f.severity = "Minor") = false := by
          rw [hMaj]; decide
        rw [if_pos hMaj, runRules_go am d rules (fs ++ [f]) (M + 1) m]
        simp only [Prod.mk.injEq]
        refine ⟨by simp, ?_, ?_⟩
        · simp only [List.filter_cons, hMaj, decide_True, if_true, List.length_cons]
          omega
        · simp only [List.filter_cons, hMin, Bool.false_eq_true, if_false]
      · by_cases hMin : f.severity = "Minor"
        · have hMaj' : decide (f.severity = "Major") = false := by
            rw [hMin]; decide
          rw [if_neg hMaj, if_pos hMin, runRules_go am d rules (fs ++ [f]) M (m + 1)]
          simp only [Prod.mk.injEq]
          refine ⟨by simp, ?_, ?_⟩
          · simp only [List.filter_cons, hMaj', Bool.false_eq_true, if_false]
          · simp only [List.filter_cons, hMin, decide_True, if_true, List.length_cons]
            omega
        · have hMaj' : decide (f.severity = "Major") = false := by
            simpa using hMaj
          have hMin' : decide (f.severity = "Minor") = false := by
            simpa using hMin
          rw [if_neg hMaj, if_neg hMin, runRules_go am d rules (fs ++ [f]) M m]
          simp only [Prod.mk.injEq]
          refine ⟨by simp, ?_, ?_⟩
          · simp only [List.filter_cons, hMaj', Bool.false_eq_true, if_false]
          · simp only [List.filter_cons, hMin', Bool.false_eq_true, if_false]

/-- `determineOutcome` finds the first matching outcome rule. -/
theorem determineOutcome_eq_find (major minor : Int) :
    ∀ ors : List OutcomeRule,
      determineOutcome ors major minor =
        (ors.find? (fun o => whenMatches o.whenCond major minor)).map OutcomeRule.outcome
  | [] => rfl
  | o :: ors => by
    by_cases h : whenMatches o.whenCond major minor
    · have hf : (o :: ors).find? (fun x => whenMatches x.whenCond major minor) = some o :=
        List.find?_cons_of_pos _ h
      rw [determineOutcome, if_pos h, hf]
      rfl
    · have hf : (o :: ors).find? (fun x => whenMatches x.whenCond major minor) =
          ors.find? (fun x => whenMatches x.whenCond major minor) :=
        List.find?_cons_of_neg _ (by simpa using h)
      rw [determineOutcome, if_neg h, hf, determineOutcome_eq_find major minor ors]

/-- A scoring configuration whose single, always-matching outcome rule has
the empty string as its outcome. -/
def c3Scoring : Scoring :=
  { outcomeRules := [⟨⟨true, none, none⟩, ""⟩], scoreValue := none }

/-- C3 counterexample: when the first matching outcome rule's outcome is the
empty string, the stored outcome is `"Unknown"` (the JS `|| 'Unknown'`
collapses every falsy outcome), not the matched rule's outcome as the claim
states. -/
theorem c3_counterexample :
    whenMatches (⟨true, none, none⟩ : WhenCond) 0 0 = true ∧
    determineOutcome c3Scoring.outcomeRules 0 0 = some "" ∧
    evalOutcome c3Scoring 0 0 = "Unknown" ∧
    specOutcomeC3 c3Scoring 0 0 = "" ∧
    ("Unknown" : String) ≠ "" := by
  refine ⟨rfl, rfl, rfl, rfl, by decide⟩

/-- C3 (amended): the evaluator emits findings exactly for the enabled rules
whose operator holds on the normalised answer, in declaration order with at
most one finding per rule and disabled rules skipped; `majorCount` and
`minorCount` equal the number of emitted findings of severity `Major` and
`Minor`; and the stored outcome is the outcome of the first matching
outcomeRule **when that outcome is a non-empty string**, and the string
`"Unknown"` when no rule matches or the matched outcome is empty. -/
theorem c3_amended (rules : List Rule) (am : AnswerMap) (d : NormOpts)
    (sc : Scoring) (major minor : Int) :
    (runRules rules am d).1 =
      (rules.filter (fun r => ruleFires r am d)).map
        (fun r => mkFinding r (answerFor am r.questionKey)) ∧
    (runRules rules am d).2.1 =
      ((runRules rules am d).1.filter (fun f => f.severity = "Major")).length ∧
    (runRules rules am d).2.2 =
      ((runRules rules am d).1.filter (fun f => f.severity = "Minor")).length ∧
    evalOutcome sc major minor =
      (match (sc.outcomeRules.find? (fun o => whenMatches o.whenCond major minor)).map
          OutcomeRule.outcome with
       | some o => if o = "" then "Unknown" else o
       | none => "Unknown") := by
  have hgo := runRules_go am d rules [] 0 0
  have hfm : rules.filterMap (fun r => evaluateRule r am d) =
      (rules.filter (fun r => ruleFires r am d)).map
        (fun r => mkFinding r (answerFor am r.questionKey)) := by
    have : (fun r => evaluateRule r am d) =
        (fun r => if ruleFires r am d then some (mkFinding r (answerFor am r.questionKey))
          else none) := by
      funext r
      exact evaluateRule_eq_if r am d
    rw [this, filterMap_guard_eq_filter_map]
  refine ⟨?_, ?_, ?_, ?_⟩
  · rw [runRules, hgo]
    simpa using hfm
  · rw [runRules, hgo]
    simp
  · rw [runRules, hgo]
    simp
  · rw [evalOutcome, determineOutcome_eq_find]
    rcases (sc.outcomeRules.find? (fun o => whenMatches o.whenCond major minor)).map
        OutcomeRule.outcome with _ | o
    · rfl
    · rfl

/-! ## C1 — watermark invariants -/

/-- The transaction body never touches the running maximum. -/
theorem ingestWork_maxC (fail : String → Bool) (dryRun : Bool) (st : IngestState)
    (item : IngestItem) :
    (ingestWork fail dryRun st item).maxCompletedAtUtc = st.maxCompletedAtUtc := by
  unfold ingestWork
  split_ifs <;> rfl

/-- Every branch of `ingestOne` keeps the bumped running maximum. -/
theorem ingestOne_maxC (fail : String → Bool) (dryRun : Bool) (st : IngestState)
    (item : IngestItem) :
    (ingestOne fail dryRun st item).maxCompletedAtUtc =
      bumpMax st.maxCompletedAtUtc item.completedAtUtc := by
  unfold ingestOne
  rw [ingestWork_maxC]

/-- The transaction body never touches the watermark row. -/
theorem ingestWork_watermarkRow (fail : String → Bool) (dryRun : Bool) (st : IngestState)
    (item : IngestItem) :
    (ingestWork fail dryRun st item).db.watermarkRow = st.db.watermarkRow := by
  unfold ingestWork
  split_ifs <;> rfl

/-- `ingestOne` never touches the watermark row. -/
theorem ingestOne_watermarkRow (fail : String → Bool) (dryRun : Bool) (st : IngestState)
    (item : IngestItem) :
    (ingestOne fail dryRun st item).db.watermarkRow = st.db.watermarkRow := by
  unfold ingestOne
  rw [ingestWork_watermarkRow]

/-- The failure counter after the transaction body. -/
theorem ingestWork_failedCount (fail : String → Bool) (dryRun : Bool) (st : IngestState)
    (item : IngestItem) :
    (ingestWork fail dryRun st item).counts.ingestFailedCount =
      if ¬dryRun ∧ fail item.reportId then st.counts.ingestFailedCount + 1
      else st.counts.ingestFailedCount := by
  unfold ingestWork
  split_ifs <;> simp_all

/-- The failure counter after one step. -/
theorem ingestOne_failedCount (fail : String → Bool) (dryRun : Bool) (st : IngestState)
    (item : IngestItem) :
    (ingestOne fail dryRun st item).counts.ingestFailedCount =
      if ¬dryRun ∧ fail item.reportId then st.counts.ingestFailedCount + 1
      else st.counts.ingestFailedCount := by
  unfold ingestOne
  rw [ingestWork_failedCount]

/-- Report rows are only ever appended by the transaction body. -/
theorem ingestWork_reports_mono (fail : String → Bool) (dryRun : Bool) (st : IngestState)
    (item : IngestItem) (rid : String) (h : reportHas st.db rid = true) :
    reportHas (ingestWork fail dryRun st item).db rid = true := by
  unfold ingestWork
  split_ifs <;> simp_all [reportHas, List.any_append]

/-- Report rows are only ever appended. -/
theorem ingestOne_reports_mono (fail : String → Bool) (dryRun : Bool) (st : IngestState)
    (item : IngestItem) (rid : String) (h : reportHas st.db rid = true) :
    reportHas (ingestOne fail dryRun st item).db rid = true := by
  unfold ingestOne
  exact ingestWork_reports_mono fail dryRun _ item rid h

/-- The fold's running maximum is the running maximum of the item list. -/
theorem foldl_ingest_maxC (fail : String → Bool) (dryRun : Bool) :
    ∀ (items : List IngestItem) (st : IngestState),
      (items.foldl (ingestOne fail dryRun) st).maxCompletedAtUtc =
        items.foldl (fun m it => bumpMax m it.completedAtUtc) st.maxCompletedAtUtc
  | [], _ => rfl
  | item :: items, st => by
    rw [List.foldl_cons, List.foldl_cons, foldl_ingest_maxC fail dryRun items,
      ingestOne_maxC]

/-- The fold never touches the watermark row. -/
theorem foldl_ingest_watermarkRow (fail : String → Bool) (dryRun : Bool) :
    ∀ (items : List IngestItem) (st : IngestState),
      (items.foldl (ingestOne fail dryRun) st).db.watermarkRow = st.db.watermarkRow
  | [], _ => rfl
  | item :: items, st => by
    rw [List.foldl_cons, foldl_ingest_watermarkRow fail dryRun items,
      ingestOne_watermarkRow]

/-- The failure counter never decreases along the fold. -/
theorem foldl_ingest_failed_le (fail : String → Bool) (dryRun : Bool) :
    ∀ (items : List IngestItem) (st : IngestState),
      st.counts.ingestFailedCount ≤
        (items.foldl (ingestOne fail dryRun) st).counts.ingestFailedCount
  | [], _ => le_refl _
  | item :: items, st => by
    rw [List.foldl_cons]
    refine le_trans ?_ (foldl_ingest_failed_le fail dryRun items _)
    rw [ingestOne_failedCount]
    split_ifs <;> omega

/-- Report rows survive the whole fold. -/
theorem foldl_ingest_reports_mono (fail : String → Bool) (dryRun : Bool) :
    ∀ (items : List IngestItem) (st : IngestState) (rid : String),
      reportHas st.db rid = true →
      reportHas ((items.foldl (ingestOne fail dryRun) st).db) rid = true
  | [], _, _, h => h
  | item :: items, st, rid, h => by
    rw [List.foldl_cons]
    exact foldl_ingest_reports_mono fail dryRun items _ rid
      (ingestOne_reports_mono fail dryRun st item rid h)

/-- The ledgered-implies-present invariant of the ingest tables. -/
def IngestInv (db : IngestDb) : Prop :=
  ∀ rid, ledgerHas db ingestionJobName rid = true → reportHas db rid = true

/-- One non-failing, non-dry step preserves the invariant, leaves the item's
report row present, and does not move the failure counter. -/
theorem ingestOne_step (fail : String → Bool) (st : IngestState) (item : IngestItem)
    (hInv : IngestInv st.db) (hfail : fail item.reportId = false) :
    IngestInv (ingestOne fail false st item).db ∧
    reportHas (ingestOne fail false st item).db item.reportId = true ∧
    (ingestOne fail false st item).counts.ingestFailedCount =
      st.counts.ingestFailedCount := by
  unfold ingestOne ingestWork
  simp only [Bool.false_eq_true, if_false, hfail]
  by_cases hL : ledgerHas st.db ingestionJobName item.reportId = true
  · rw [if_pos hL]
    exact ⟨hInv, hInv item.reportId hL, rfl⟩
  · rw [if_neg hL]
    by_cases hR : reportHas
        { st.db with ledger := st.db.ledger ++ [(ingestionJobName, item.reportId)] }
        item.reportId = true
    · rw [if_pos hR]
      refine ⟨?_, hR, rfl⟩
      intro rid hrid
      simp only [ledgerHas, List.any_append] at hrid
      simp only [reportHas] at hR ⊢
      rcases Bool.or_eq_true_iff.mp hrid with h | h
      · exact hInv rid h
      · simp only [List.any_cons, List.any_nil, Bool.or_false, decide_eq_true_eq] at h
        rw [← h.2]
        exact hR
    · rw [if_neg hR]
      refine ⟨?_, ?_, rfl⟩
      · intro rid hrid
        simp only [ledgerHas, List.any_append] at hrid
        simp only [reportHas, List.any_append]
        rcases Bool.or_eq_true_iff.mp hrid with h | h
        · exact Bool.or_eq_true_iff.mpr (Or.inl (hInv rid h))
        · simp only [List.any_cons, List.any_nil, Bool.or_false, decide_eq_true_eq] at h
          refine Bool.or_eq_true_iff.mpr (Or.inr ?_)
          simp [h.2]
      · simp [reportHas, List.any_append]

/-- A failing step leaves the tables unchanged. -/
theorem ingestOne_db_of_fail (fail : String → Bool) (st : IngestState) (item : IngestItem)
    (hfail : fail item.reportId = true) :
    (ingestOne fail false st item).db = st.db := by
  unfold ingestOne ingestWork
  simp [hfail]

/-- A dry-run step leaves the tables unchanged. -/
theorem ingestOne_dry_db (fail : String → Bool) (st : IngestState) (item : IngestItem) :
    (ingestOne fail true st item).db = st.db := by
  unfold ingestOne ingestWork
  split_ifs <;> simp_all

/-- Along a non-dry fold the invariant is preserved, and when no step failed
every item of the batch ends with its report row present. -/
theorem foldl_ingest_inv (fail : String → Bool) :
    ∀ (items : List IngestItem) (st : IngestState), IngestInv st.db →
      IngestInv ((items.foldl (ingestOne fail false) st).db) ∧
      (((items.foldl (ingestOne fail false) st).counts.ingestFailedCount =
          st.counts.ingestFailedCount) →
        ∀ it ∈ items, reportHas ((items.foldl (ingestOne fail false) st).db) it.reportId = true)
  | [], st, hInv => ⟨hInv, by simp⟩
  | item :: items, st, hInv => by
    rw [List.foldl_cons]
    by_cases hf : fail item.reportId = true
    · have hdb := ingestOne_db_of_fail fail st item hf
      have hcnt : (ingestOne fail false st item).counts.ingestFailedCount =
          st.counts.ingestFailedCount + 1 := by
        rw [ingestOne_failedCount]
        simp [hf]
      obtain ⟨hInv', _⟩ := foldl_ingest_inv fail items (ingestOne fail false st item)
        (by rw [hdb]; exact hInv)
      refine ⟨hInv', ?_⟩
      intro hzero
      exfalso
      have := foldl_ingest_failed_le fail false items (ingestOne fail false st item)
      omega
    · have hstep := ingestOne_step fail st item hInv (by simpa using hf)
      obtain ⟨hInv', hrep, hcnt⟩ := hstep
      obtain ⟨hInvF, hAll⟩ := foldl_ingest_inv fail items (ingestOne fail false st item) hInv'
      refine ⟨hInvF, ?_⟩
      intro hzero it hit
      rcases List.mem_cons.mp hit with rfl | hmem
      · exact foldl_ingest_reports_mono fail false items _ it.reportId hrep
      · exact hAll (by omega) it hmem

/-- A nonempty batch has a running maximum. -/
theorem maxCompletedAt_isSome (items : List IngestItem) (hne : items ≠ []) :
    (maxCompletedAt items).isSome = true := by
  have hb : ∀ (v t : Int), ∃ w, bumpMax (some v) t = some w := by
    intro v t
    simp only [bumpMax]
    split_ifs <;> exact ⟨_, rfl⟩
  have key : ∀ (l : List IngestItem) (v : Int),
      (l.foldl (fun m it => bumpMax m it.completedAtUtc) (some v)).isSome = true := by
    intro l
    induction l with
    | nil => intro v; rfl
    | cons it l ih =>
      intro v
      obtain ⟨w, hw⟩ := hb v it.completedAtUtc
      rw [List.foldl_cons, hw]
      exact ih w
  rcases items with _ | ⟨it, items⟩
  · exact absurd rfl hne
  · rw [maxCompletedAt, List.foldl_cons]
    exact key items it.completedAtUtc

/-- C1: for a (non-dry) run, the ingestion watermark value is monotonically
non-decreasing; it is rewritten only when no per-item ingest transaction
failed, and then to the maximum of the current watermark and the batch's
running maximum `completedAt` — and in that no-failure case every batch item
ends committed (its report row present, given the ledger/report invariant
from prior committed runs); if any item failed to ingest, the watermark row is
untouched; a dry run never touches it either. -/
theorem c1_watermark (fail : String → Bool) (db : IngestDb) (items : List IngestItem)
    (hne : items ≠ [])
    (hInv : ∀ rid, ledgerHas db ingestionJobName rid = true → reportHas db rid = true) :
    watermarkValue db ≤ watermarkValue (ingestPhase fail false db items).1 ∧
    ((ingestPhase fail false db items).2.1.ingestFailedCount ≠ 0 →
      (ingestPhase fail false db items).1.watermarkRow = db.watermarkRow) ∧
    ((ingestPhase fail false db items).2.1.ingestFailedCount = 0 →
      (ingestPhase fail false db items).1.watermarkRow =
        some (max (watermarkValue db) ((maxCompletedAt items).getD (watermarkValue db))) ∧
      ∀ it ∈ items, reportHas (ingestPhase fail false db items).1 it.reportId = true) ∧
    (ingestPhase fail true db items).1.watermarkRow = db.watermarkRow := by
  have hrow := foldl_ingest_watermarkRow fail false items ⟨db, zeroIngestCounts, none, []⟩
  have hmax := foldl_ingest_maxC fail false items ⟨db, zeroIngestCounts, none, []⟩
  have hInvF := foldl_ingest_inv fail items ⟨db, zeroIngestCounts, none, []⟩ hInv
  rw [ingestPhase]
  set st := ingestReports fail false db items with hst
  have hstfold : st = items.foldl (ingestOne fail false) ⟨db, zeroIngestCounts, none, []⟩ := rfl
  by_cases hfz : st.counts.ingestFailedCount = 0
  · have hsome : st.maxCompletedAtUtc.isSome = true := by
      rw [hstfold, hmax]
      exact maxCompletedAt_isSome items hne
    have hgate : (¬false = true ∧ (st.maxCompletedAtUtc.isSome = true ∨
        ¬(getWatermarkPair db).2 = true) ∧ st.counts.ingestFailedCount = 0) := by
      exact ⟨by simp, Or.inl hsome, hfz⟩
    rw [if_pos hgate]
    rcases hM : st.maxCompletedAtUtc with _ | M
    · rw [hM] at hsome; cases hsome
    have hMval : maxCompletedAt items = some M := by
      rw [← hM, hstfold, hmax]; rfl
    refine ⟨?_, ?_, ?_, ?_⟩
    · simp only [watermarkValue, getWatermarkPair]
      rcases db.watermarkRow with _ | w
      · simp only
        split_ifs <;> omega
      · simp only
        split_ifs <;> omega
    · intro hnz
      exact absurd hfz hnz
    · intro _
      constructor
      · simp only [hMval, Option.getD_some]
        congr 1
        rcases hlt : decide (M > (getWatermarkPair db).1) with _ | _
        · simp only [decide_eq_false_iff_not, not_lt] at hlt
          rw [if_neg (by omega)]
          rw [watermarkValue]
          omega
        · simp only [decide_eq_true_eq] at hlt
          rw [if_pos hlt, watermarkValue]
          omega
      · intro it hit
        have := hInvF.2 (by simpa using hfz) it hit
        simpa [reportHas] using this
    · rw [ingestPhase]
      have : ¬(¬true = true ∧ ((ingestReports fail true db items).maxCompletedAtUtc.isSome = true ∨
          ¬(getWatermarkPair db).2 = true) ∧
          (ingestReports fail true db items).counts.ingestFailedCount = 0) := by
        intro h
        exact absurd rfl h.1
      rw [if_neg this]
      exact foldl_ingest_watermarkRow fail true items ⟨db, zeroIngestCounts, none, []⟩
  · have hgate : ¬(¬false = true ∧ (st.maxCompletedAtUtc.isSome = true ∨
        ¬(getWatermarkPair db).2 = true) ∧ st.counts.ingestFailedCount = 0) := by
      intro h
      exact hfz h.2.2
    rw [if_neg hgate]
    refine ⟨?_, ?_, ?_, ?_⟩
    · rw [watermarkValue, watermarkValue]
      have : st.db.watermarkRow = db.watermarkRow := by rw [hstfold]; exact hrow
      rw [getWatermarkPair, getWatermarkPair, this]
    · intro _
      rw [hstfold]
      exact hrow
    · intro hz
      exact absurd hz hfz
    · rw [ingestPhase]
      have : ¬(¬true = true ∧ ((ingestReports fail true db items).maxCompletedAtUtc.isSome = true ∨
          ¬(getWatermarkPair db).2 = true) ∧
          (ingestReports fail true db items).counts.ingestFailedCount = 0) := by
        intro h
        exact absurd rfl h.1
      rw [if_neg this]
      exact foldl_ingest_watermarkRow fail true items ⟨db, zeroIngestCounts, none, []⟩

/-- An empty ingest database. -/
def c1Db : IngestDb := ⟨[], [], none⟩

/-- A one-item batch. -/
def c1Items : List IngestItem := [⟨"R1", 5, none⟩]

/-- C1 witness: the watermark theorem applied to a fresh database and a
single-item batch with no failures. -/
theorem c1_witness :
    watermarkValue c1Db ≤ watermarkValue (ingestPhase (fun _ => false) false c1Db c1Items).1 ∧
    ((ingestPhase (fun _ => false) false c1Db c1Items).2.1.ingestFailedCount ≠ 0 →
      (ingestPhase (fun _ => false) false c1Db c1Items).1.watermarkRow = c1Db.watermarkRow) ∧
    ((ingestPhase (fun _ => false) false c1Db c1Items).2.1.ingestFailedCount = 0 →
      (ingestPhase (fun _ => false) false c1Db c1Items).1.watermarkRow =
        some (max (watermarkValue c1Db)
          ((maxCompletedAt c1Items).getD (watermarkValue c1Db))) ∧
      ∀ it ∈ c1Items,
        reportHas (ingestPhase (fun _ => false) false c1Db c1Items).1 it.reportId = true) ∧
    (ingestPhase (fun _ => false) true c1Db c1Items).1.watermarkRow = c1Db.watermarkRow :=
  c1_watermark (fun _ => false) c1Db c1Items (List.cons_ne_nil _ _)
    (by intro rid h; simp [ledgerHas, c1Db] at h)

/-! ## C2 — at-most-once per item key -/

/-- Number of ledger rows for `(job, key)` (the primary key makes this 0/1 in
a healthy database; the embedding proves it stays that way). -/
def countLedger (db : IngestDb) (job key : String) : Nat :=
  (db.ledger.filter (fun e => e.1 = job ∧ e.2 = key)).length

/-- Number of report rows for a report id. -/
def countReports (db : IngestDb) (rid : String) : Nat :=
  (db.reports.filter (fun r => r.reportId = rid)).length

/-- Number of scoring-ledger rows for `(job, key)`. -/
def countScoreLedger (db : ScoreDb) (job key : String) : Nat :=
  (db.ledger.filter (fun e => e.1 = job ∧ e.2 = key)).length

/-- A list with no matching element reports `any = false`. -/
theorem any_false_of_filter_len_zero {α : Type} (p : α → Bool) :
    ∀ l : List α, (l.filter p).length = 0 → l.any p = false
  | [], _ => rfl
  | a :: l, h => by
    rw [List.filter_cons] at h
    by_cases hp : p a
    · rw [if_pos hp] at h
      simp at h
    · rw [if_neg hp] at h
      simp only [List.any_cons, Bool.or_eq_false_iff]
      exact ⟨by simpa using hp, any_false_of_filter_len_zero p l h⟩

/-- Appending one element changes the filtered length by its match. -/
theorem filter_append_singleton_len {α : Type} (p : α → Bool) (l : List α) (x : α) :
    ((l ++ [x]).filter p).length = (l.filter p).length + (if p x then 1 else 0) := by
  rw [List.filter_append]
  by_cases h : p x
  · simp [List.filter_cons, h]
  · simp [List.filter_cons, h]

/-- C2: stage effects are at-most-once per item key. Replaying ingest on the
same item across two runs leaves exactly one report row and one ingestion
ledger row for the id, the second run counting it `alreadyProcessed` and
committing nothing; the ledger insert comes first, so any state in which the
ledger already holds the key commits nothing for the item; and replaying
scoring leaves exactly one scoring ledger row per `(reportId, name, version)`
with the second run counted `alreadyProcessed`. -/
theorem c2_at_most_once (db : IngestDb) (item : IngestItem)
    (h1 : countLedger db ingestionJobName item.reportId = 0)
    (h2 : countReports db item.reportId = 0)
    (sdb : ScoreDb) (c : ScoreCounts) (rid name ver : String) (doc : RulesDoc)
    (am : AnswerMap)
    (h3 : countScoreLedger sdb scoringJobName (rid ++ "|" ++ name ++ "|" ++ ver) = 0) :
    (countLedger (ingestReports (fun _ => false) false db [item]).db
        ingestionJobName item.reportId = 1 ∧
      countReports (ingestReports (fun _ => false) false db [item]).db item.reportId = 1 ∧
      (ingestReports (fun _ => false) false db [item]).counts.ingested = 1 ∧
      (ingestReports (fun _ => false) false
          (ingestReports (fun _ => false) false db [item]).db [item]).db =
        (ingestReports (fun _ => false) false db [item]).db ∧
      (ingestReports (fun _ => false) false
          (ingestReports (fun _ => false) false db [item]).db [item]).counts.ingested = 0 ∧
      (ingestReports (fun _ => false) false
          (ingestReports (fun _ => false) false db [item]).db
          [item]).counts.ingestAlreadyProcessed = 1) ∧
    (∀ st : IngestState, ledgerHas st.db ingestionJobName item.reportId = true →
      (ingestWork (fun _ => false) false st item).db = st.db ∧
      (ingestWork (fun _ => false) false st item).counts.ingestAlreadyProcessed =
        st.counts.ingestAlreadyProcessed + 1) ∧
    (countScoreLedger (scoreReport sdb c rid name ver doc am).1 scoringJobName
        (rid ++ "|" ++ name ++ "|" ++ ver) = 1 ∧
      (scoreReport (scoreReport sdb c rid name ver doc am).1
          (scoreReport sdb c rid name ver doc am).2 rid name ver doc am).1 =
        (scoreReport sdb c rid name ver doc am).1 ∧
      (scoreReport (scoreReport sdb c rid name ver doc am).1
          (scoreReport sdb c rid name ver doc am).2 rid name ver doc
          am).2.scoreAlreadyProcessed =
        (scoreReport sdb c rid name ver doc am).2.scoreAlreadyProcessed + 1) := by
  have hL : ledgerHas db ingestionJobName item.reportId = false :=
    any_false_of_filter_len_zero _ _ h1
  have hR : reportHas db item.reportId = false :=
    any_false_of_filter_len_zero _ _ h2
  have hr1 : ingestReports (fun _ => false) false db [item] =
      ⟨{ db with
          ledger := db.ledger ++ [(ingestionJobName, item.reportId)]
          reports := db.reports ++
            [⟨item.reportId, item.completedAtUtc, item.certificationNumber⟩] },
        { zeroIngestCounts with ingested := 1 },
        some item.completedAtUtc, []⟩ := by
    unfold ingestReports
    rw [List.foldl_cons, List.foldl_nil]
    unfold ingestOne ingestWork
    rw [if_neg (by simp), if_neg (by simp), if_neg (by simp [hL]),
      if_neg (by simp only [reportHas] at hR ⊢; simp [hR])]
    rfl
  have hd1 : (ingestReports (fun _ => false) false db [item]).db =
      { db with
        ledger := db.ledger ++ [(ingestionJobName, item.reportId)]
        reports := db.reports ++
          [⟨item.reportId, item.completedAtUtc, item.certificationNumber⟩] } := by
    rw [hr1]
  have hL2 : ledgerHas (ingestReports (fun _ => false) false db [item]).db
      ingestionJobName item.reportId = true := by
    rw [hd1]
    simp [ledgerHas, List.any_append]
  have hdup : ∀ st : IngestState, ledgerHas st.db ingestionJobName item.reportId = true →
      (ingestWork (fun _ => false) false st item).db = st.db ∧
      (ingestWork (fun _ => false) false st item).counts.ingestAlreadyProcessed =
        st.counts.ingestAlreadyProcessed + 1 := by
    intro st hst
    unfold ingestWork
    rw [if_neg (by simp), if_neg (by simp), if_pos (by simp [hst])]
    exact ⟨rfl, rfl⟩
  have hdup1 : ∀ db' : IngestDb, ledgerHas db' ingestionJobName item.reportId = true →
      ingestReports (fun _ => false) false db' [item] =
        (⟨db', { zeroIngestCounts with ingestAlreadyProcessed := 1 },
          some item.completedAtUtc, []⟩ : IngestState) := by
    intro db' h
    unfold ingestReports
    rw [List.foldl_cons, List.foldl_nil]
    unfold ingestOne ingestWork
    rw [if_neg (by simp), if_neg (by simp), if_pos (by simp [h])]
    rfl
  have hr2 := hdup1 (ingestReports (fun _ => false) false db [item]).db hL2
  refine ⟨⟨?_, ?_, ?_, ?_, ?_, ?_⟩, hdup, ?_⟩
  · rw [hd1, countLedger]
    show ((db.ledger ++ [(ingestionJobName, item.reportId)]).filter _).length = 1
    rw [filter_append_singleton_len]
    rw [countLedger] at h1
    rw [h1, if_pos (by simp)]
  · rw [hd1, countReports]
    show ((db.reports ++
      [(⟨item.reportId, item.completedAtUtc, item.certificationNumber⟩ : ReportRow)]).filter
        (fun r => decide (r.reportId = item.reportId))).length = 1
    rw [filter_append_singleton_len]
    rw [countReports] at h2
    rw [h2, if_pos (by simp)]
  · rw [hr1]
  · rw [hr2]
  · rw [hr2]
    rfl
  · rw [hr2]
  · -- scoring replay
    have hS : scoreLedgerHas sdb scoringJobName (rid ++ "|" ++ name ++ "|" ++ ver) = false :=
      any_false_of_filter_len_zero _ _ h3
    have hled : (scoreReport sdb c rid name ver doc am).1.ledger =
        sdb.ledger ++ [(scoringJobName, rid ++ "|" ++ name ++ "|" ++ ver)] := by
      unfold scoreReport
      rw [if_neg (by simp [hS])]
      split_ifs <;> rfl
    have hS2 : scoreLedgerHas (scoreReport sdb c rid name ver doc am).1 scoringJobName
        (rid ++ "|" ++ name ++ "|" ++ ver) = true := by
      rw [scoreLedgerHas, hled]
      simp [List.any_append]
    have hdup2 : ∀ (db2 : ScoreDb) (c2 : ScoreCounts),
        scoreLedgerHas db2 scoringJobName (rid ++ "|" ++ name ++ "|" ++ ver) = true →
        scoreReport db2 c2 rid name ver doc am =
          (db2, { c2 with scoreAlreadyProcessed := c2.scoreAlreadyProcessed + 1 }) := by
      intro db2 c2 h
      unfold scoreReport
      rw [if_pos (by simp [h])]
    refine ⟨?_, ?_, ?_⟩
    · rw [countScoreLedger, hled, filter_append_singleton_len]
      rw [countScoreLedger] at h3
      rw [h3, if_pos (by simp)]
    · rw [hdup2 _ _ hS2]
    · rw [hdup2 _ _ hS2]

/-- A scoring-ledger collision rolls the transaction back: nothing changes
and the item counts `scoreAlreadyProcessed`. -/
theorem scoreReport_dup (db : ScoreDb) (c : ScoreCounts) (rid name ver : String)
    (doc : RulesDoc) (am : AnswerMap)
    (h : scoreLedgerHas db scoringJobName (rid ++ "|" ++ name ++ "|" ++ ver) = true) :
    scoreReport db c rid name ver doc am =
      (db, { c with scoreAlreadyProcessed := c.scoreAlreadyProcessed + 1 }) := by
  unfold scoreReport
  rw [if_pos (by simp [h])]

/-- An empty scoring database. -/
def c2ScoreDb : ScoreDb := ⟨[], [], []⟩

/-- A minimal rule document for the witness. -/
def c2Doc : RulesDoc :=
  { ruleSetName := "PV"
    ruleSetVersion := "v2"
    answerNormalization := ⟨true, true, true⟩
    rules := []
    scoring := { outcomeRules := [⟨⟨true, none, none⟩, "Pass"⟩], scoreValue := none }
    ignoreQuestionKeys := [] }

/-- C2 witness: the at-most-once theorem on a fresh database, one item and a
fresh scoring key. -/
theorem c2_witness :
    (countLedger (ingestReports (fun _ => false) false c1Db [⟨"R1", 5, none⟩]).db
        ingestionJobName ("R1" : String) = 1 ∧
      countReports (ingestReports (fun _ => false) false c1Db [⟨"R1", 5, none⟩]).db "R1" = 1 ∧
      (ingestReports (fun _ => false) false c1Db [⟨"R1", 5, none⟩]).counts.ingested = 1 ∧
      (ingestReports (fun _ => false) false
          (ingestReports (fun _ => false) false c1Db [⟨"R1", 5, none⟩]).db
          [⟨"R1", 5, none⟩]).db =
        (ingestReports (fun _ => false) false c1Db [⟨"R1", 5, none⟩]).db ∧
      (ingestReports (fun _ => false) false
          (ingestReports (fun _ => false) false c1Db [⟨"R1", 5, none⟩]).db
          [⟨"R1", 5, none⟩]).counts.ingested = 0 ∧
      (ingestReports (fun _ => false) false
          (ingestReports (fun _ => false) false c1Db [⟨"R1", 5, none⟩]).db
          [⟨"R1", 5, none⟩]).counts.ingestAlreadyProcessed = 1) ∧
    (∀ st : IngestState, ledgerHas st.db ingestionJobName ("R1" : String) = true →
      (ingestWork (fun _ => false) false st ⟨"R1", 5, none⟩).db = st.db ∧
      (ingestWork (fun _ => false) false st ⟨"R1", 5, none⟩).counts.ingestAlreadyProcessed =
        st.counts.ingestAlreadyProcessed + 1) ∧
    (countScoreLedger (scoreReport c2ScoreDb zeroScoreCounts "R1" "PV" "v2" c2Doc []).1
        scoringJobName ("R1" ++ "|" ++ "PV" ++ "|" ++ "v2") = 1 ∧
      (scoreReport (scoreReport c2ScoreDb zeroScoreCounts "R1" "PV" "v2" c2Doc []).1
          (scoreReport c2ScoreDb zeroScoreCounts "R1" "PV" "v2" c2Doc []).2
          "R1" "PV" "v2" c2Doc []).1 =
        (scoreReport c2ScoreDb zeroScoreCounts "R1" "PV" "v2" c2Doc []).1 ∧
      (scoreReport (scoreReport c2ScoreDb zeroScoreCounts "R1" "PV" "v2" c2Doc []).1
          (scoreReport c2ScoreDb zeroScoreCounts "R1" "PV" "v2" c2Doc []).2
          "R1" "PV" "v2" c2Doc []).2.scoreAlreadyProcessed =
        (scoreReport c2ScoreDb zeroScoreCounts "R1" "PV" "v2" c2Doc
          []).2.scoreAlreadyProcessed + 1) :=
  c2_at_most_once c1Db ⟨"R1", 5, none⟩ (by decide) (by decide) c2ScoreDb zeroScoreCounts
    "R1" "PV" "v2" c2Doc [] (by decide)

/-! ## C6 — certificate extraction -/

/-- A header row carrying `QUESTION_ID = "1"` before the first `Detail` row. -/
def c6RowsA : List DetailRow :=
  [⟨some "Header", some "1", none, some "H"⟩,
   ⟨some "Detail", some "1", none, some "D"⟩]

/-- A matching `Detail` row with a blank answer before a later matching row. -/
def c6RowsB : List DetailRow :=
  [⟨some "Detail", some "1", none, some " "⟩,
   ⟨some "Detail", none, some "MCS Certificate Number", some "C2"⟩]

/-- C6 counterexample: the source's scan has no `RecordType` filter, so a
`Header` row with `QUESTION_ID = "1"` wins over the first `Detail` row
(`"H"` versus the claim's `"D"`); and a matching row with a blank answer is
passed over, so the claim's "trimmed answer of the first matching Detail row"
(the empty string) differs from the returned `"C2"`. -/
theorem c6_counterexample :
    extractCertificate c6RowsA = some "H" ∧
    specExtractCertificateC6 c6RowsA = some "D" ∧
    some "H" ≠ some "D" ∧
    extractCertificate c6RowsB = some "C2" ∧
    specExtractCertificateC6 c6RowsB = some "" ∧
    some "C2" ≠ some "" := by
  refine ⟨by decide, by decide, by decide, by decide, by decide, by decide⟩

/-- C6 (amended): certificate extraction returns the trimmed `Answer`
(truncated to 100 characters) of the first row of **any** record type whose
trimmed `QUESTION_ID` equals `"1"` or whose `Question` matches
`/certificate number/i` **and** whose `Answer` is non-null and non-blank;
`null` when no such row exists. -/
theorem c6_amended (rows : List DetailRow) :
    extractCertificate rows =
      (rows.find? certCodeMatch).map (fun row => truncate (jsTrim (row.answer.getD "")) 100) := by
  induction rows with
  | nil => rfl
  | cons row rest ih =>
    simp only [extractCertificate]
    by_cases h : (jsTrim (row.questionId.getD "") = "1" ∨
        containsCI (row.question.getD "") "certificate number") ∧ answerNonBlank row.answer
    · rw [if_pos h, List.find?_cons_of_pos _ (by simpa [certCodeMatch] using h)]
      rfl
    · rw [if_neg h, List.find?_cons_of_neg _ (by simpa [certCodeMatch] using h), ih]

/-! ## C7 — non-array summary body on a 2xx response -/

/-- C7 counterexample: a 200 response whose body is valid JSON but not an
array is classified as a successful fetch with an empty item list, and the
run then records `Succeeded` with exit code 0 — not `Failed` with a non-zero
exit as the claim states. -/
theorem c7_counterexample :
    classifySummaryAttempt 200 SummaryBody.jsonObject = FetchClass.ok [] ∧
    runAfterSummary (classifySummaryAttempt 200 SummaryBody.jsonObject) 0 none 50 =
      some { status := "Succeeded", exitCode := 0 } ∧
    ({ status := "Succeeded", exitCode := 0 } : RunEnd) ≠
      { status := "Failed", exitCode := 1 } := by
  refine ⟨rfl, by decide, by decide⟩

/-- C7 (amended): on a 2xx summary response, a body that is not valid JSON is
fatal — the run is recorded `Failed` with exit code 1; but a body that is
valid JSON without being an array yields an empty item list, and the run
(with nothing selected) is recorded `Succeeded` with exit code 0. -/
theorem c7_amended (status : Nat) (h1 : 200 ≤ status) (h2 : status ≤ 299)
    (lb : Int) (ub : Option Int) (bs : Nat) :
    classifySummaryAttempt status SummaryBody.notJson = FetchClass.fatalError ∧
    runAfterSummary (classifySummaryAttempt status SummaryBody.notJson) lb ub bs =
      some { status := "Failed", exitCode := 1 } ∧
    classifySummaryAttempt status SummaryBody.jsonObject = FetchClass.ok [] ∧
    runAfterSummary (classifySummaryAttempt status SummaryBody.jsonObject) lb ub bs =
      some { status := "Succeeded", exitCode := 0 } := by
  have hA : ¬(status = 401 ∨ status = 403) := by omega
  have hB : ¬(status = 429 ∨ (500 ≤ status ∧ status ≤ 599)) := by omega
  have hC : (200 ≤ status ∧ status ≤ 299) := ⟨h1, h2⟩
  have e1 : classifySummaryAttempt status SummaryBody.notJson = FetchClass.fatalError := by
    rw [classifySummaryAttempt, if_neg hA, if_neg hB, if_neg (not_not_intro hC)]
  have e2 : classifySummaryAttempt status SummaryBody.jsonObject = FetchClass.ok [] := by
    rw [classifySummaryAttempt, if_neg hA, if_neg hB, if_neg (not_not_intro hC)]
  refine ⟨e1, ?_, e2, ?_⟩
  · rw [e1]; rfl
  · rw [e2]
    simp [runAfterSummary, runBatchSelection, selectBatch, sortItems, eligibleItems]

/-! ## C9 — ineligible items commit a ledger-only transaction -/

/-- C9: when the answer map shares no normalised key with the rule set's
eligibility key set, `scoreReport` still commits a transaction containing
only the scoring ledger row: the ledger row exists afterwards, findings and
scores are untouched, the item counts `skippedNotEligible`, and a later run
on the same `(reportId, name, version)` rolls back as `alreadyProcessed`
without re-evaluating. -/
theorem c9_not_eligible_commits_ledger (db : ScoreDb) (c : ScoreCounts)
    (rid name ver : String) (doc : RulesDoc) (am : AnswerMap)
    (hL : scoreLedgerHas db scoringJobName (rid ++ "|" ++ name ++ "|" ++ ver) = false)
    (hdisj : ∀ kv ∈ am, ∀ n, normalizeQuestionKeyValue (some kv.1) = some n →
      n ∉ extractRulesetQuestionKeys doc) :
    (scoreReport db c rid name ver doc am).1 =
      { db with ledger := db.ledger ++ [(scoringJobName, rid ++ "|" ++ name ++ "|" ++ ver)] } ∧
    scoreLedgerHas (scoreReport db c rid name ver doc am).1 scoringJobName
      (rid ++ "|" ++ name ++ "|" ++ ver) = true ∧
    (scoreReport db c rid name ver doc am).1.findings = db.findings ∧
    (scoreReport db c rid name ver doc am).1.scores = db.scores ∧
    (scoreReport db c rid name ver doc am).2 =
      { c with skippedNotEligible := c.skippedNotEligible + 1 } ∧
    scoreReport (scoreReport db c rid name ver doc am).1
        (scoreReport db c rid name ver doc am).2 rid name ver doc am =
      ((scoreReport db c rid name ver doc am).1,
        { (scoreReport db c rid name ver doc am).2 with
          scoreAlreadyProcessed :=
            (scoreReport db c rid name ver doc am).2.scoreAlreadyProcessed + 1 }) := by
  have hElig : answerMapEligible am (extractRulesetQuestionKeys doc) = false := by
    rw [answerMapEligible, List.any_eq_false]
    intro kv hkv
    rcases hn : normalizeQuestionKeyValue (some kv.1) with _ | n
    · simp [hn]
    · have hmem := hdisj kv hkv n hn
      simp only [hn]
      simpa using hmem
  have hmain : scoreReport db c rid name ver doc am =
      ({ db with ledger := db.ledger ++ [(scoringJobName, rid ++ "|" ++ name ++ "|" ++ ver)] },
        { c with skippedNotEligible := c.skippedNotEligible + 1 }) := by
    unfold scoreReport
    rw [if_neg (by simp [hL]), if_pos (by simp [hElig])]
  have hS2 : scoreLedgerHas (scoreReport db c rid name ver doc am).1 scoringJobName
      (rid ++ "|" ++ name ++ "|" ++ ver) = true := by
    rw [hmain]
    simp [scoreLedgerHas, List.any_append]
  refine ⟨by rw [hmain], hS2, by rw [hmain], by rw [hmain], by rw [hmain],
    scoreReport_dup _ _ _ _ _ _ _ hS2⟩

/-- A rule document whose eligibility key set is `{"7"}`. -/
def c9Doc : RulesDoc :=
  { ruleSetName := "PV"
    ruleSetVersion := "v2"
    answerNormalization := ⟨true, true, true⟩
    rules := [{ questionKey := "7"
                enabled := none
                questionKeysAny := ["7"]
                nonCompliantWhen :=
                  { op := RuleOp.missing, value := none, values := none,
                    trimOverride := none, ciOverride := none }
                finding :=
                  { severity := "Major", code := none, message := "m",
                    majorNonCompliantText := none, minorNonCompliantText := none } }]
    scoring := { outcomeRules := [⟨⟨true, none, none⟩, "Pass"⟩], scoreValue := none }
    ignoreQuestionKeys := [] }

/-- C9 witness: a fresh scoring state and an answer map (`{"9" ↦ "x"}`)
disjoint from `c9Doc`'s key set `{"7"}`. -/
theorem c9_witness :
    (scoreReport c2ScoreDb zeroScoreCounts "R1" "PV" "v2" c9Doc [("9", some "x")]).1 =
      { c2ScoreDb with
        ledger := c2ScoreDb.ledger ++ [(scoringJobName, "R1" ++ "|" ++ "PV" ++ "|" ++ "v2")] } ∧
    scoreLedgerHas (scoreReport c2ScoreDb zeroScoreCounts "R1" "PV" "v2" c9Doc
        [("9", some "x")]).1 scoringJobName ("R1" ++ "|" ++ "PV" ++ "|" ++ "v2") = true ∧
    (scoreReport c2ScoreDb zeroScoreCounts "R1" "PV" "v2" c9Doc
        [("9", some "x")]).1.findings = c2ScoreDb.findings ∧
    (scoreReport c2ScoreDb zeroScoreCounts "R1" "PV" "v2" c9Doc
        [("9", some "x")]).1.scores = c2ScoreDb.scores ∧
    (scoreReport c2ScoreDb zeroScoreCounts "R1" "PV" "v2" c9Doc [("9", some "x")]).2 =
      { zeroScoreCounts with
        skippedNotEligible := zeroScoreCounts.skippedNotEligible + 1 } ∧
    scoreReport (scoreReport c2ScoreDb zeroScoreCounts "R1" "PV" "v2" c9Doc
        [("9", some "x")]).1
        (scoreReport c2ScoreDb zeroScoreCounts "R1" "PV" "v2" c9Doc [("9", some "x")]).2
        "R1" "PV" "v2" c9Doc [("9", some "x")] =
      ((scoreReport c2ScoreDb zeroScoreCounts "R1" "PV" "v2" c9Doc [("9", some "x")]).1,
        { (scoreReport c2ScoreDb zeroScoreCounts "R1" "PV" "v2" c9Doc
            [("9", some "x")]).2 with
          scoreAlreadyProcessed :=
            (scoreReport c2ScoreDb zeroScoreCounts "R1" "PV" "v2" c9Doc
              [("9", some "x")]).2.scoreAlreadyProcessed + 1 }) :=
  c9_not_eligible_commits_ledger c2ScoreDb zeroScoreCounts "R1" "PV" "v2" c9Doc
    [("9", some "x")] (by decide) (by decide)

/-- C7 witness: the amended statement at status 200 with epoch bounds and the
default batch size. -/
theorem c7_witness :
    classifySummaryAttempt 200 SummaryBody.notJson = FetchClass.fatalError ∧
    runAfterSummary (classifySummaryAttempt 200 SummaryBody.notJson) 0 none 50 =
      some { status := "Failed", exitCode := 1 } ∧
    classifySummaryAttempt 200 SummaryBody.jsonObject = FetchClass.ok [] ∧
    runAfterSummary (classifySummaryAttempt 200 SummaryBody.jsonObject) 0 none 50 =
      some { status := "Succeeded", exitCode := 0 } :=
  c7_amended 200 (by decide) (by decide) 0 none 50

/-! ## C5 — batch selection with tie expansion -/

/-- `itemLE` implies completion-instant order. -/
theorem itemLE_t_le {a b : IngestItem} (h : itemLE a b) :
    a.completedAtUtc ≤ b.completedAtUtc := by
  rcases h with h | ⟨h, _⟩
  · omega
  · omega

/-- In a sorted list, every element's instant is bounded by the last one. -/
theorem sorted_le_getLast :
    ∀ (l : List IngestItem) (x : IngestItem), l.Sorted itemLE →
      l.getLast? = some x → ∀ z ∈ l, z.completedAtUtc ≤ x.completedAtUtc
  | [], _, _, h => by cases h
  | [a], x, _, h => by
    obtain rfl : a = x := by simpa using h
    intro z hz
    obtain rfl : z = a := by simpa using hz
    exact le_refl _
  | a :: b :: l, x, hs, h => by
    rw [List.getLast?_cons_cons] at h
    intro z hz
    rcases List.mem_cons.mp hz with rfl | hz'
    · have hx : x ∈ b :: l := List.mem_of_getLast?_eq_some h
      exact itemLE_t_le ((List.sorted_cons.mp hs).1 x hx)
    · exact sorted_le_getLast (b :: l) x (List.sorted_cons.mp hs).2 h z hz'

/-- Under sortedness with lower bound `c`, taking while the instant equals
`c` captures exactly the elements whose instant equals `c`. -/
theorem takeWhile_eq_filter_sorted (c : Int) :
    ∀ d : List IngestItem, d.Sorted itemLE →
      (∀ it ∈ d, c ≤ it.completedAtUtc) →
      d.takeWhile (fun it => decide (it.completedAtUtc = c)) =
        d.filter (fun it => decide (it.completedAtUtc = c))
  | [], _, _ => rfl
  | a :: d, hs, hge => by
    by_cases h : a.completedAtUtc = c
    · rw [List.takeWhile_cons_of_pos (by simpa using h),
        List.filter_cons_of_pos (by simpa using h),
        takeWhile_eq_filter_sorted c d (List.sorted_cons.mp hs).2
          (fun it ht => hge it (List.mem_cons_of_mem a ht))]
    · rw [List.takeWhile_cons_of_neg (by simpa using h),
        List.filter_cons_of_neg (by simpa using h)]
      symm
      rw [List.filter_eq_nil_iff]
      intro b hb
      have h1 : a.completedAtUtc ≤ b.completedAtUtc :=
        itemLE_t_le ((List.sorted_cons.mp hs).1 b hb)
      have h2 : c ≤ a.completedAtUtc := hge a (List.mem_cons_self a d)
      simp only [decide_eq_true_eq]
      omega

/-- `bumpMax` over `some` folds to the integer maximum. -/
theorem foldl_bump_some :
    ∀ (l : List IngestItem) (a : Int),
      l.foldl (fun m it => bumpMax m it.completedAtUtc) (some a) =
        some (l.foldl (fun m it => max m it.completedAtUtc) a)
  | [], _ => rfl
  | it :: l, a => by
    rw [List.foldl_cons, List.foldl_cons]
    have hb : bumpMax (some a) it.completedAtUtc = some (max a it.completedAtUtc) := by
      simp only [bumpMax]
      split_ifs with h
      · rw [max_eq_right (by omega)]
      · rw [max_eq_left (by omega)]
    rw [hb, foldl_bump_some l (max a it.completedAtUtc)]

/-- The fold's start bounds the folded maximum from below. -/
theorem foldl_max_lb_init :
    ∀ (l : List IngestItem) (a : Int),
      a ≤ l.foldl (fun m it => max m it.completedAtUtc) a
  | [], a => le_refl a
  | it :: l, a => by
    rw [List.foldl_cons]
    exact le_trans (le_max_left _ _) (foldl_max_lb_init l _)

/-- Every member bounds the folded maximum from below. -/
theorem foldl_max_lb_mem :
    ∀ (l : List IngestItem) (a : Int) (z : IngestItem), z ∈ l →
      z.completedAtUtc ≤ l.foldl (fun m it => max m it.completedAtUtc) a
  | [], _, z, hz => absurd hz (List.not_mem_nil z)
  | it :: l, a, z, hz => by
    rw [List.foldl_cons]
    rcases List.mem_cons.mp hz with rfl | hz'
    · exact le_trans (le_max_right _ _) (foldl_max_lb_init l _)
    · exact foldl_max_lb_mem l _ z hz'

/-- An upper bound on the start and every member bounds the folded maximum. -/
theorem foldl_max_ub :
    ∀ (l : List IngestItem) (a v : Int), a ≤ v →
      (∀ z ∈ l, z.completedAtUtc ≤ v) →
      l.foldl (fun m it => max m it.completedAtUtc) a ≤ v
  | [], _, _, ha, _ => ha
  | it :: l, a, v, ha, hl => by
    rw [List.foldl_cons]
    exact foldl_max_ub l _ v (max_le ha (hl it (List.mem_cons_self it l)))
      (fun z hz => hl z (List.mem_cons_of_mem it hz))

/-- The batch running maximum is the attained upper bound. -/
theorem maxCompletedAt_eq (l : List IngestItem) (v : Int)
    (hmem : ∃ z ∈ l, z.completedAtUtc = v)
    (hub : ∀ z ∈ l, z.completedAtUtc ≤ v) :
    maxCompletedAt l = some v := by
  rcases l with _ | ⟨a, l⟩
  · rcases hmem with ⟨z, hz, _⟩
    cases hz
  · rw [maxCompletedAt, List.foldl_cons]
    show (l.foldl (fun m it => bumpMax m it.completedAtUtc)
      (bumpMax none a.completedAtUtc)) = some v
    rw [show bumpMax none a.completedAtUtc = some a.completedAtUtc from rfl,
      foldl_bump_some]
    congr 1
    have hub' : l.foldl (fun m it => max m it.completedAtUtc) a.completedAtUtc ≤ v :=
      foldl_max_ub l _ v (hub a (List.mem_cons_self a l))
        (fun z hz => hub z (List.mem_cons_of_mem a hz))
    rcases hmem with ⟨z, hz, hzv⟩
    rcases List.mem_cons.mp hz with rfl | hz'
    · have := foldl_max_lb_init l z.completedAtUtc
      omega
    · have := foldl_max_lb_mem l a.completedAtUtc z hz'
      omega

/-- With the constant-false failure oracle no step fails. -/
theorem foldl_ingest_noFail :
    ∀ (items : List IngestItem) (st : IngestState),
      (items.foldl (ingestOne (fun _ => false) false) st).counts.ingestFailedCount =
        st.counts.ingestFailedCount
  | [], _ => rfl
  | item :: items, st => by
    rw [List.foldl_cons, foldl_ingest_noFail items, ingestOne_failedCount]
    simp

/-- The post-ingest watermark of a non-failing, non-dry run over a nonempty
batch: the maximum of the current watermark and the batch maximum. -/
theorem ingestPhase_watermark_noFail (db : IngestDb) (items : List IngestItem)
    (hne : items ≠ []) :
    (ingestPhase (fun _ => false) false db items).1.watermarkRow =
      some (max (watermarkValue db) ((maxCompletedAt items).getD (watermarkValue db))) := by
  rw [ingestPhase]
  set st := ingestReports (fun _ => false) false db items with hst
  have hstfold : st = items.foldl (ingestOne (fun _ => false) false)
      ⟨db, zeroIngestCounts, none, []⟩ := rfl
  have hmax : st.maxCompletedAtUtc = maxCompletedAt items := by
    rw [hstfold, foldl_ingest_maxC]
    rfl
  have hfz : st.counts.ingestFailedCount = 0 := by
    rw [hstfold, foldl_ingest_noFail]
    rfl
  have hsome : st.maxCompletedAtUtc.isSome = true := by
    rw [hmax]
    exact maxCompletedAt_isSome items hne
  rw [if_pos ⟨by simp, Or.inl hsome, hfz⟩]
  rcases hM : st.maxCompletedAtUtc with _ | M
  · rw [hM] at hsome
    cases hsome
  have hMval : maxCompletedAt items = some M := by rw [← hM, hmax]
  simp only [hMval, Option.getD_some]
  congr 1
  rw [watermarkValue]
  by_cases hlt : M > (getWatermarkPair db).1
  · rw [if_pos hlt]
    omega
  · rw [if_neg hlt]
    omega

/-- C5: sorted selection takes the first `batchSize` items and then every
further eligible item tied on `completedAt` with the last selected one; when
the `batchSize`-th and `(batchSize+1)`-th sorted eligible items share a
`completedAt`, both are selected, and (with every eligible item above the
current watermark and no ingest failure) the watermark then advances to
exactly that shared instant. -/
theorem c5_tie_expansion (eligible : List IngestItem) (batchSize : Nat) (db : IngestDb)
    (x y : IngestItem)
    (hwm : ∀ it ∈ eligible, watermarkValue db < it.completedAtUtc)
    (hbs : 1 ≤ batchSize)
    (hx : (sortItems eligible).get? (batchSize - 1) = some x)
    (hy : (sortItems eligible).get? batchSize = some y)
    (heq : x.completedAtUtc = y.completedAtUtc) :
    runBatchSelection eligible batchSize =
      (sortItems eligible).take batchSize ++
        ((sortItems eligible).drop batchSize).filter
          (fun it => decide (it.completedAtUtc = x.completedAtUtc)) ∧
    x ∈ runBatchSelection eligible batchSize ∧
    y ∈ runBatchSelection eligible batchSize ∧
    (ingestPhase (fun _ => false) false db
      (runBatchSelection eligible batchSize)).1.watermarkRow = some x.completedAtUtc := by
  set s := sortItems eligible with hsdef
  have hsorted : s.Sorted itemLE := List.sorted_insertionSort itemLE eligible
  have hlen : batchSize < s.length := by
    rcases List.get?_eq_some.mp hy with ⟨h, _⟩
    exact h
  have hlentake : (s.take batchSize).length = batchSize :=
    List.length_take_of_le (le_of_lt hlen)
  have hxtake : (s.take batchSize).get? (batchSize - 1) = s.get? (batchSize - 1) :=
    List.get?_take (by omega)
  have hlast : (s.take batchSize).getLast? = some x := by
    rw [List.getLast?_eq_get?, hlentake, hxtake, hx]
  have hsel : selectBatch s batchSize =
      s.take batchSize ++ (s.drop batchSize).takeWhile
        (fun it => decide (it.completedAtUtc = x.completedAtUtc)) := by
    rw [selectBatch]
    rw [if_pos ⟨by omega, by omega⟩]
    rw [hlast]
    rw [hlentake]
  have hsortTake : (s.take batchSize).Sorted itemLE :=
    hsorted.sublist (List.take_sublist batchSize s)
  have hsortDrop : (s.drop batchSize).Sorted itemLE :=
    hsorted.sublist (List.drop_sublist batchSize s)
  have htake_le : ∀ z ∈ s.take batchSize, z.completedAtUtc ≤ x.completedAtUtc :=
    sorted_le_getLast _ x hsortTake hlast
  have hdrop_ge : ∀ z ∈ s.drop batchSize, x.completedAtUtc ≤ z.completedAtUtc := by
    intro z hz
    rcases List.mem_iff_get?.mp hz with ⟨j, hj⟩
    rw [List.get?_drop] at hj
    have hxel : s.get ⟨batchSize - 1, by omega⟩ = x := by
      have := hx
      rw [List.get?_eq_getElem?] at this
      simpa [List.getElem?_eq_getElem (show batchSize - 1 < s.length by omega)] using this
    have hjlt : batchSize + j < s.length := by
      rcases List.get?_eq_some.mp hj with ⟨h, _⟩
      exact h
    have hzel : s.get ⟨batchSize + j, hjlt⟩ = z := by
      rw [List.get?_eq_getElem?] at hj
      simpa [List.getElem?_eq_getElem hjlt] using hj
    have hrel : itemLE (s.get ⟨batchSize - 1, by omega⟩) (s.get ⟨batchSize + j, hjlt⟩) :=
      hsorted.rel_get_of_lt (by simp; omega)
    rw [hxel, hzel] at hrel
    exact itemLE_t_le hrel
  have hfilter : (s.drop batchSize).takeWhile
        (fun it => decide (it.completedAtUtc = x.completedAtUtc)) =
      (s.drop batchSize).filter
        (fun it => decide (it.completedAtUtc = x.completedAtUtc)) :=
    takeWhile_eq_filter_sorted _ _ hsortDrop hdrop_ge
  have hselF : runBatchSelection eligible batchSize =
      s.take batchSize ++ (s.drop batchSize).filter
        (fun it => decide (it.completedAtUtc = x.completedAtUtc)) := by
    rw [runBatchSelection, ← hsdef, hsel, hfilter]
  have hxmem : x ∈ runBatchSelection eligible batchSize := by
    rw [hselF]
    refine List.mem_append_left _ ?_
    exact List.get?_mem (by rw [hxtake]; exact hx)
  have hymem : y ∈ runBatchSelection eligible batchSize := by
    rw [hselF]
    refine List.mem_append_right _ ?_
    rw [List.mem_filter]
    have hyd : y ∈ s.drop batchSize := by
      refine List.get?_mem (n := 0) ?_
      rw [List.get?_drop]
      simpa using hy
    exact ⟨hyd, by simp [heq]⟩
  refine ⟨hselF, hxmem, hymem, ?_⟩
  have hne : runBatchSelection eligible batchSize ≠ [] := by
    intro hnil
    rw [hnil] at hxmem
    cases hxmem
  have hsub : ∀ z ∈ runBatchSelection eligible batchSize,
      z.completedAtUtc ≤ x.completedAtUtc := by
    intro z hz
    rw [hselF] at hz
    rcases List.mem_append.mp hz with h | h
    · exact htake_le z h
    · have := (List.mem_filter.mp h).2
      simp only [decide_eq_true_eq] at this
      omega
  have hmaxv : maxCompletedAt (runBatchSelection eligible batchSize) =
      some x.completedAtUtc :=
    maxCompletedAt_eq _ _ ⟨x, hxmem, rfl⟩ hsub
  have hwx : watermarkValue db < x.completedAtUtc := by
    have hxs : x ∈ s := List.get?_mem hx
    have : x ∈ eligible := by
      rw [hsdef, sortItems] at hxs
      exact (List.mem_insertionSort itemLE).mp hxs
    exact hwm x this
  rw [ingestPhase_watermark_noFail db _ hne, hmaxv]
  simp only [Option.getD_some]
  congr 1
  omega

/-- Six eligible items with a tie at the batch boundary (batch size 2). -/
def c5Eligible : List IngestItem :=
  [⟨"A", 10, none⟩, ⟨"B", 10, none⟩, ⟨"C", 10, none⟩, ⟨"D", 11, none⟩]

/-- C5 witness: with batch size 2, items `A@10, B@10, C@10, D@11` (all above
the epoch watermark) select `{A, B, C}` and the watermark advances to 10. -/
theorem c5_witness :
    runBatchSelection c5Eligible 2 =
      (sortItems c5Eligible).take 2 ++
        ((sortItems c5Eligible).drop 2).filter
          (fun it => decide (it.completedAtUtc = (10 : Int))) ∧
    (⟨"B", 10, none⟩ : IngestItem) ∈ runBatchSelection c5Eligible 2 ∧
    (⟨"C", 10, none⟩ : IngestItem) ∈ runBatchSelection c5Eligible 2 ∧
    (ingestPhase (fun _ => false) false c1Db (runBatchSelection c5Eligible 2)).1.watermarkRow =
      some (10 : Int) :=
  c5_tie_expansion c5Eligible 2 c1Db ⟨"B", 10, none⟩ ⟨"C", 10, none⟩
    (by decide) (by decide) (by decide) (by decide) (by decide)

/-! ## C10 — outbox materialiser counters -/

/-- C10: `missingRecipient` is always 0 (the SQL variable is declared but
never computed); with scope `all`, `skippedAlreadyExists` is always 0 too;
and every `Src` candidate — including those whose installer join yields no
e-mail address — is inserted as a `Pending` outbox row whose
`RecipientEmail` is simply the (possibly null) join result. -/
theorem c10_materialise (db : EoDb) (opts : EoOptions) :
    (materialiseEmailOutbox db opts).1.missingRecipient = 0 ∧
    (normalizeScope opts.scope = "all" →
      (materialiseEmailOutbox db opts).1.skippedAlreadyExists = 0) ∧
    (normalizeScope opts.scope = "all" →
      (materialiseEmailOutbox db opts).2.outbox =
        db.outbox ++ (srcScores db none opts.batchSize).map (fun p => mkOutboxRow db p.1 p.2) ∧
      ∀ p ∈ srcScores db none opts.batchSize,
        (mkOutboxRow db p.1 p.2).status = "Pending" ∧
        (mkOutboxRow db p.1 p.2).attemptCount = 0 ∧
        (mkOutboxRow db p.1 p.2).recipientEmail =
          (installerFor db p.2.certificationNumber).bind (fun i => i.email) ∧
        mkOutboxRow db p.1 p.2 ∈ (materialiseEmailOutbox db opts).2.outbox) := by
  unfold materialiseEmailOutbox
  by_cases hearly : normalizeScope opts.scope = "batch" ∧
      (normalizeReportIds opts.reportIds).isEmpty = true
  · rw [if_pos hearly]
    have hnb : normalizeScope opts.scope ≠ "all" := by
      rw [hearly.1]
      decide
    exact ⟨rfl, fun hall => absurd hall hnb, fun hall => absurd hall hnb⟩
  · rw [if_neg hearly]
    refine ⟨rfl, ?_, ?_⟩
    · intro hall
      show (if normalizeScope opts.scope = "batch" then _ else 0) = 0
      rw [if_neg (by rw [hall]; decide)]
    · intro hall
      have hbid : eoBatchIds opts = none := by
        unfold eoBatchIds
        rw [if_neg (by rw [hall]; simp)]
      rw [hbid]
      refine ⟨rfl, ?_⟩
      intro p hp
      refine ⟨rfl, rfl, rfl, ?_⟩
      show mkOutboxRow db p.1 p.2 ∈ db.outbox ++
        ((srcScores db none opts.batchSize).map (fun q => mkOutboxRow db q.1 q.2))
      exact List.mem_append_right _ (List.mem_map_of_mem _ hp)

/-- A database with one scored report whose certificate has no installation
(and hence no installer e-mail). -/
def c10Db : EoDb :=
  { scores := [⟨"R1", "PV", "v2"⟩]
    reports := [⟨"R1", some "MCS-1"⟩]
    installations := []
    installers := []
    outbox := [] }

/-- C10 witness: the counter theorem at scope `all` on a database whose only
candidate has no installer e-mail. -/
theorem c10_witness :
    (materialiseEmailOutbox c10Db ⟨some "all", none, 2000⟩).1.missingRecipient = 0 ∧
    (normalizeScope (some "all") = "all" →
      (materialiseEmailOutbox c10Db ⟨some "all", none, 2000⟩).1.skippedAlreadyExists = 0) ∧
    (normalizeScope (some "all") = "all" →
      (materialiseEmailOutbox c10Db ⟨some "all", none, 2000⟩).2.outbox =
        c10Db.outbox ++ (srcScores c10Db none 2000).map
          (fun p => mkOutboxRow c10Db p.1 p.2) ∧
      ∀ p ∈ srcScores c10Db none 2000,
        (mkOutboxRow c10Db p.1 p.2).status = "Pending" ∧
        (mkOutboxRow c10Db p.1 p.2).attemptCount = 0 ∧
        (mkOutboxRow c10Db p.1 p.2).recipientEmail =
          (installerFor c10Db p.2.certificationNumber).bind (fun i => i.email) ∧
        mkOutboxRow c10Db p.1 p.2 ∈
          (materialiseEmailOutbox c10Db ⟨some "all", none, 2000⟩).2.outbox) :=
  c10_materialise c10Db ⟨some "all", none, 2000⟩

/-! ## C8 — question-key length bound and idempotence

`normalizeQuestionKey` (part_000 lines 184-209). The question-id branch
returns the trimmed id with no length bound, and the hashed branch is not a
fixed point of the derivation: when the truncated 215-character head ends in
an underscore, the appended underscore forms a double underscore that a
rederivation collapses. The amended statement bounds text-derived keys and
restricts idempotence to keys whose normalised form was not hashed. -/

/-- The output alphabet of the text normalisation: `[a-z0-9]` or underscore. -/
def keyChar (c : Char) : Prop := isLowerAlnum c = true ∨ c = '_'

/-- No two adjacent characters are both underscores. -/
def noDoubleUnderscore (l : List Char) : Prop :=
  l.Chain' (fun a b => ¬(a = '_' ∧ b = '_'))

/-- Characters of the key alphabet are not JavaScript whitespace. -/
theorem keyChar_not_ws {c : Char} (h : keyChar c) : isJsWs c = false := by
  rcases h with h | h
  · simp only [isLowerAlnum, decide_eq_true_eq] at h
    simp only [isJsWs, decide_eq_false_iff_not]
    omega
  · subst h; decide

/-- Characters of the key alphabet are fixed by `toLowerCase`. -/
theorem keyChar_lowerChar {c : Char} (h : keyChar c) : lowerChar c = c := by
  rcases h with h | h
  · simp only [isLowerAlnum, decide_eq_true_eq] at h
    rw [lowerChar, if_neg]
    omega
  · subst h; decide

/-- A lower-case alphanumeric character is not an underscore. -/
theorem alnum_ne_underscore {c : Char} (h : isLowerAlnum c = true) : c ≠ '_' := by
  intro hc
  subst hc
  exact absurd h (by decide)

/-- Every character emitted by the underscore replacement is in the key
alphabet. -/
theorem keyChar_replaceNonAlnumGo : ∀ (b : Bool) (l : List Char),
    ∀ c ∈ replaceNonAlnumGo b l, keyChar c := by
  intro b l
  induction l generalizing b with
  | nil => intro c hc; simp [replaceNonAlnumGo] at hc
  | cons d ds ih =>
    intro c hc
    cases hd : isLowerAlnum d with
    | true =>
      simp only [replaceNonAlnumGo, hd, if_true] at hc
      rcases List.mem_cons.mp hc with hcd | hcm
      · subst hcd; exact Or.inl hd
      · exact ih false c hcm
    | false =>
      cases b with
      | true =>
        simp only [replaceNonAlnumGo, hd] at hc
        exact ih true c (by simpa using hc)
      | false =>
        simp only [replaceNonAlnumGo, hd] at hc
        rcases List.mem_cons.mp (by simpa using hc) with hcd | hcm
        · subst hcd; exact Or.inr rfl
        · exact ih true c hcm

/-- Inside a non-alphanumeric run the next emitted character is
alphanumeric. -/
theorem head_replaceNonAlnumGo_true : ∀ (l : List Char) (c : Char),
    (replaceNonAlnumGo true l).head? = some c → isLowerAlnum c = true := by
  intro l
  induction l with
  | nil => intro c hc; simp [replaceNonAlnumGo] at hc
  | cons d ds ih =>
    intro c hc
    cases hd : isLowerAlnum d with
    | true =>
      simp only [replaceNonAlnumGo, hd, if_true, List.head?_cons,
        Option.some.injEq] at hc
      subst hc; exact hd
    | false =>
      simp only [replaceNonAlnumGo, hd] at hc
      exact ih c (by simpa using hc)

/-- The underscore replacement never emits two adjacent underscores. -/
theorem nd_replaceNonAlnumGo : ∀ (b : Bool) (l : List Char),
    noDoubleUnderscore (replaceNonAlnumGo b l) := by
  intro b l
  induction l generalizing b with
  | nil => simp [replaceNonAlnumGo, noDoubleUnderscore]
  | cons d ds ih =>
    cases hd : isLowerAlnum d with
    | true =>
      show noDoubleUnderscore (replaceNonAlnumGo b (d :: ds))
      simp only [replaceNonAlnumGo, hd, if_true]
      rw [noDoubleUnderscore, List.chain'_cons']
      refine ⟨fun y _ hcon => alnum_ne_underscore hd hcon.1, ih false⟩
    | false =>
      cases b with
      | true =>
        show noDoubleUnderscore (replaceNonAlnumGo true (d :: ds))
        simp only [replaceNonAlnumGo, hd]
        simpa using ih true
      | false =>
        show noDoubleUnderscore (replaceNonAlnumGo false (d :: ds))
        simp only [replaceNonAlnumGo, hd]
        rw [if_neg (by decide : ¬((false : Bool) = true)),
          if_neg (by decide : ¬((false : Bool) = true))]
        rw [noDoubleUnderscore, List.chain'_cons']
        refine ⟨fun y hy hcon => ?_, ih true⟩
        exact alnum_ne_underscore (head_replaceNonAlnumGo_true ds y hy) hcon.2

/-- On a list over the key alphabet with no double and no leading underscore
(the shape of a derived key), the underscore replacement is the identity; the
second conjunct handles lists whose head is alphanumeric while inside a
run. -/
theorem replaceNonAlnumGo_id : ∀ l : List Char, (∀ c ∈ l, keyChar c) →
    noDoubleUnderscore l →
    (replaceNonAlnumGo false l = l ∧
      ∀ h, l.head? = some h → isLowerAlnum h = true → replaceNonAlnumGo true l = l) := by
  intro l
  induction l with
  | nil => exact fun _ _ => ⟨rfl, fun h hh _ => by simp at hh⟩
  | cons d ds ih =>
    intro hkc hnd
    have hkcds : ∀ c ∈ ds, keyChar c := fun c hc => hkc c (List.mem_cons_of_mem d hc)
    have hndds : noDoubleUnderscore ds :=
      (List.chain'_cons'.mp hnd).2
    obtain ⟨ihf, iht⟩ := ih hkcds hndds
    have hkd : keyChar d := hkc d (List.mem_cons_self d ds)
    have htrue : ∀ h, (d :: ds).head? = some h → isLowerAlnum h = true →
        replaceNonAlnumGo true (d :: ds) = d :: ds := by
      intro h hh halnum
      simp only [List.head?_cons, Option.some.injEq] at hh
      subst hh
      simp only [replaceNonAlnumGo, halnum, if_true, List.cons.injEq]
      exact ⟨trivial, ihf⟩
    refine ⟨?_, htrue⟩
    rcases hkd with hd | hd
    · simp only [replaceNonAlnumGo, hd, if_true, List.cons.injEq]
      exact ⟨trivial, ihf⟩
    · subst hd
      have hd0 : isLowerAlnum '_' = false := by decide
      simp only [replaceNonAlnumGo, hd0]
      rw [if_neg (by decide : ¬((false : Bool) = true)),
        if_neg (by decide : ¬((false : Bool) = true))]
      refine congrArg (List.cons '_') ?_
      cases ds with
      | nil => rfl
      | cons e es =>
        have hrel := (List.chain'_cons'.mp hnd).1 e (by simp)
        have he : e ≠ '_' := fun h => hrel ⟨rfl, h⟩
        have healn : isLowerAlnum e = true := by
          rcases hkcds e (List.mem_cons_self e es) with h | h
          · exact h
          · exact absurd h he
        exact iht e rfl healn

/-- Whitespace collapsing is the identity on whitespace-free lists. -/
theorem collapseWsGo_false_id : ∀ l : List Char, (∀ c ∈ l, isJsWs c = false) →
    collapseWsGo false l = l := by
  intro l
  induction l with
  | nil => intro _; rfl
  | cons d ds ih =>
    intro h
    have hd := h d (List.mem_cons_self d ds)
    simp only [collapseWsGo, hd]
    rw [if_neg (by decide : ¬((false : Bool) = true))]
    exact congrArg (List.cons d) (ih (fun c hc => h c (List.mem_cons_of_mem d hc)))

/-- `dropWhile` is the identity when the head fails the predicate. -/
theorem dropWhile_eq_self_of_head (p : Char → Bool) (l : List Char)
    (h : ∀ c, l.head? = some c → p c = false) : l.dropWhile p = l := by
  cases l with
  | nil => rfl
  | cons d ds =>
    rw [List.dropWhile_cons, if_neg (by simp [h d rfl])]

/-- Trimming is the identity on whitespace-free lists. -/
theorem trimChars_eq_self (l : List Char) (h : ∀ c ∈ l, isJsWs c = false) :
    trimChars l = l := by
  rw [trimChars,
    dropWhile_eq_self_of_head _ _ (fun c hc => h c (List.mem_of_mem_head? hc)),
    dropWhile_eq_self_of_head _ _
      (fun c hc => h c (List.mem_reverse.mp (List.mem_of_mem_head? hc))),
    List.reverse_reverse]

/-- Underscore trimming is the identity when neither edge is an underscore. -/
theorem trimUnderscores_eq_self (l : List Char)
    (h1 : ∀ c, l.head? = some c → c ≠ '_')
    (h2 : ∀ c, l.getLast? = some c → c ≠ '_') :
    trimUnderscores l = l := by
  have hinner : l.dropWhile (fun c => c = '_') = l :=
    dropWhile_eq_self_of_head _ _ (fun c hc => by simpa using h1 c hc)
  rw [trimUnderscores, hinner,
    dropWhile_eq_self_of_head _ _
      (fun c hc => by simpa using h2 c (by rwa [List.head?_reverse] at hc)),
    List.reverse_reverse]

/-- Lower-casing is the identity on the key alphabet. -/
theorem lowerList_eq_self (l : List Char) (h : ∀ c ∈ l, keyChar c) :
    lowerList l = l := by
  induction l with
  | nil => rfl
  | cons d ds ih =>
    rw [lowerList, List.map_cons, keyChar_lowerChar (h d (List.mem_cons_self d ds))]
    have htl := ih (fun c hc => h c (List.mem_cons_of_mem d hc))
    rw [lowerList] at htl
    rw [htl]

/-- The head surviving `dropWhile` fails the predicate. -/
theorem head?_dropWhile_ne (p : Char → Bool) (l : List Char) (c : Char)
    (hc : (l.dropWhile p).head? = some c) : p c = false := by
  have h := List.head?_dropWhile_not p l
  rw [hc] at h
  exact h

/-- `dropWhile` keeps the last element when its result is nonempty. -/
theorem getLast?_dropWhile (p : Char → Bool) (l : List Char) (c : Char)
    (hc : (l.dropWhile p).getLast? = some c) : l.getLast? = some c := by
  obtain ⟨pre, hpre⟩ := List.dropWhile_suffix (l := l) p
  rw [← hpre, List.getLast?_append_of_ne_nil]
  · exact hc
  · intro hnil
    rw [hnil] at hc
    simp at hc

/-- The head of an underscore-trimmed list is not an underscore. -/
theorem head_trimUnderscores_ne (l : List Char) (c : Char)
    (hc : (trimUnderscores l).head? = some c) : c ≠ '_' := by
  rw [trimUnderscores, List.head?_reverse] at hc
  have h2 := getLast?_dropWhile _ _ _ hc
  rw [List.getLast?_reverse] at h2
  simpa using head?_dropWhile_ne _ _ _ h2

/-- The last element of an underscore-trimmed list is not an underscore. -/
theorem getLast_trimUnderscores_ne (l : List Char) (c : Char)
    (hc : (trimUnderscores l).getLast? = some c) : c ≠ '_' := by
  rw [trimUnderscores, List.getLast?_reverse] at hc
  simpa using head?_dropWhile_ne _ _ _ hc

/-- Underscore trimming only removes characters. -/
theorem mem_of_mem_trimUnderscores {c : Char} {l : List Char}
    (hc : c ∈ trimUnderscores l) : c ∈ l := by
  rw [trimUnderscores, List.mem_reverse] at hc
  have h1 := (List.dropWhile_sublist _).subset hc
  rw [List.mem_reverse] at h1
  exact (List.dropWhile_sublist _).subset h1

/-- `noDoubleUnderscore` is preserved by reversal. -/
theorem nd_reverse {l : List Char} (h : noDoubleUnderscore l) :
    noDoubleUnderscore l.reverse := by
  rw [noDoubleUnderscore, List.chain'_reverse]
  exact h.imp (fun a b hab hc => hab ⟨hc.2, hc.1⟩)

/-- `noDoubleUnderscore` is preserved by `dropWhile`. -/
theorem nd_dropWhile {p : Char → Bool} {l : List Char} (h : noDoubleUnderscore l) :
    noDoubleUnderscore (l.dropWhile p) := by
  obtain ⟨pre, hpre⟩ := List.dropWhile_suffix (l := l) p
  rw [noDoubleUnderscore] at h ⊢
  rw [← hpre] at h
  exact h.right_of_append

/-- `noDoubleUnderscore` is preserved by underscore trimming. -/
theorem nd_trimUnderscores {l : List Char} (h : noDoubleUnderscore l) :
    noDoubleUnderscore (trimUnderscores l) := by
  rw [trimUnderscores]
  exact nd_reverse (nd_dropWhile (nd_reverse (nd_dropWhile h)))

/-- A derived key consists of key-alphabet characters. -/
theorem keyChar_deriveKeyChars (t : String) : ∀ c ∈ deriveKeyChars t, keyChar c := by
  intro c hc
  rw [deriveKeyChars] at hc
  exact keyChar_replaceNonAlnumGo false _ c (mem_of_mem_trimUnderscores hc)

/-- A derived key has no double underscore. -/
theorem nd_deriveKeyChars (t : String) : noDoubleUnderscore (deriveKeyChars t) := by
  rw [deriveKeyChars]
  exact nd_trimUnderscores (nd_replaceNonAlnumGo false _)

/-- The text-normalisation pipeline is the identity on its own output
shape: key-alphabet characters, no double underscore, no edge underscore. -/
theorem deriveKeyChars_self (kl : List Char)
    (hkc : ∀ c ∈ kl, keyChar c) (hnd : noDoubleUnderscore kl)
    (hhead : ∀ c, kl.head? = some c → c ≠ '_')
    (hlast : ∀ c, kl.getLast? = some c → c ≠ '_') :
    deriveKeyChars ⟨kl⟩ = kl := by
  show trimUnderscores (replaceNonAlnum (trimChars (collapseWs (lowerList kl)))) = kl
  rw [lowerList_eq_self kl hkc, collapseWs,
    collapseWsGo_false_id kl (fun c hc => keyChar_not_ws (hkc c hc)),
    trimChars_eq_self kl (fun c hc => keyChar_not_ws (hkc c hc)),
    replaceNonAlnum, (replaceNonAlnumGo_id kl hkc hnd).1]
  exact trimUnderscores_eq_self kl hhead hlast

/-- The hexadecimal rendering yields two characters per byte. -/
theorem bytesToHexChars_length (bs : List Nat) :
    (bytesToHexChars bs).length = 2 * bs.length := by
  induction bs with
  | nil => rfl
  | cons b tl ih =>
    have hstep : bytesToHexChars (b :: tl) =
        hexDigitChar (b / 16 % 16) :: hexDigitChar (b % 16) :: bytesToHexChars tl := rfl
    rw [hstep, List.length_cons, List.length_cons, ih, List.length_cons]
    omega

/-- Big-endian expansion yields the requested number of bytes. -/
theorem beBytes_length (n k : Nat) : (beBytes n k).length = k := by
  rw [beBytes, List.length_map, List.length_range]

/-- A SHA-1 digest is 20 bytes. -/
theorem sha1Bytes_length (msg : List Nat) : (sha1Bytes msg).length = 20 := by
  rw [sha1Bytes]
  simp [beBytes_length]

/-- A hex-rendered SHA-1 digest is 40 characters. -/
theorem sha1HexChars_length (s : String) : (sha1HexChars s).length = 40 := by
  rw [sha1HexChars, bytesToHexChars_length, sha1Bytes_length]

/-- A question id of 257 characters. -/
def c8LongId : String := ⟨List.replicate 257 'x'⟩

/-- A question text whose normalised form (214 `a`s, one underscore, 100
`b`s — 315 characters) exceeds 256 characters and whose truncated
215-character head ends in an underscore. -/
def c8Text : String := ⟨List.replicate 214 'a' ++ ' ' :: List.replicate 100 'b'⟩

/-- The key derived from `c8Text`: the double underscore before the hash
comes from the truncation boundary. -/
def c8Key1 : String :=
  ⟨List.replicate 214 'a' ++ '_' :: '_' ::
    "4470d54bc10dd1cd0a896fbebe02dc26d3b512a2".data⟩

/-- Rederiving from `c8Key1` collapses the double underscore. -/
def c8Key2 : String :=
  ⟨List.replicate 214 'a' ++ '_' ::
    "4470d54bc10dd1cd0a896fbebe02dc26d3b512a2".data⟩

set_option maxRecDepth 400000 in
/-- C8, counterexample. The claimed length bound fails on the question-id
branch of `normalizeQuestionKey`, which returns a 257-character id verbatim;
and the claimed idempotence fails on the hashed branch: the key derived from
`c8Text` contains a double underscore before the hash suffix, so deriving
from the key's own text yields a different (255-character) key. -/
theorem c8_counterexample :
    (normalizeQuestionKey (some c8LongId) none = some c8LongId ∧
      256 < c8LongId.length) ∧
    (normalizeQuestionKey none (some c8Text) = some c8Key1 ∧
      normalizeQuestionKey none (some c8Key1) = some c8Key2 ∧
      c8Key1 ≠ c8Key2) := by decide

/-- C8, amended. Keys derived from question text are at most 256 characters;
the text derivation is idempotent whenever the normalised text was not
hashed (it fit in 256 characters); and the question-id branch returns the
trimmed id as is, with no length bound. -/
theorem c8_amended :
    (∀ t k, normalizeQuestionKey none (some t) = some k → k.length ≤ 256) ∧
    (∀ t k, normalizeQuestionKey none (some t) = some k →
      (deriveKeyChars t).length ≤ 256 → normalizeQuestionKey none (some k) = some k) ∧
    (∀ q qt, ¬q = "" → ¬jsTrim q = "" →
      normalizeQuestionKey (some q) qt = some (jsTrim q)) := by
  refine ⟨?_, ?_, ?_⟩
  · intro t k h
    simp only [normalizeQuestionKey, questionKeyFromText] at h
    split_ifs at h with h1 h2 h3
    · injection h with h
      subst h
      exact h3
    · injection h with h
      subst h
      show (List.take (256 - (sha1HexChars ⟨deriveKeyChars t⟩).length - 1)
          (deriveKeyChars t) ++ '_' :: sha1HexChars ⟨deriveKeyChars t⟩).length ≤ 256
      rw [List.length_append, List.length_take, List.length_cons, sha1HexChars_length]
      omega
  · intro t k h hle
    simp only [normalizeQuestionKey, questionKeyFromText] at h
    split_ifs at h with h1 h2
    · injection h with h
      subst h
      have hkc := keyChar_deriveKeyChars t
      have hnd := nd_deriveKeyChars t
      have hhead : ∀ c, (deriveKeyChars t).head? = some c → c ≠ '_' := by
        intro c hc
        rw [deriveKeyChars] at hc
        exact head_trimUnderscores_ne _ c hc
      have hlast : ∀ c, (deriveKeyChars t).getLast? = some c → c ≠ '_' := by
        intro c hc
        rw [deriveKeyChars] at hc
        exact getLast_trimUnderscores_ne _ c hc
      have hself : deriveKeyChars ⟨deriveKeyChars t⟩ = deriveKeyChars t :=
        deriveKeyChars_self _ hkc hnd hhead hlast
      have hne : deriveKeyChars t ≠ [] := by
        intro hnil
        exact h2 (by rw [hnil]; rfl)
      simp only [normalizeQuestionKey, questionKeyFromText, hself]
      rw [if_neg (show ¬((⟨deriveKeyChars t⟩ : String) = "") from
          fun hs => hne (congrArg String.data hs)),
        if_neg h2, if_pos hle]
  · intro q qt h1 h2
    simp only [normalizeQuestionKey]
    rw [if_pos ⟨h1, h2⟩]

/-- C8, witness: the amended statement at concrete inputs — the key derived
from `"Install  Type?"` is `"install_type"`, within the bound and a fixed
point of the derivation, and the question-id branch trims `" Q7 "`. -/
theorem c8_witness :
    ("install_type" : String).length ≤ 256 ∧
    normalizeQuestionKey none (some "install_type") = some "install_type" ∧
    normalizeQuestionKey (some " Q7 ") none = some (jsTrim " Q7 ") :=
  ⟨c8_amended.1 "Install  Type?" "install_type" (by decide),
   c8_amended.2.1 "Install  Type?" "install_type" (by decide) (by decide),
   c8_amended.2.2 " Q7 " none (by decide) (by decide)⟩

end GoAudits
